import Mathlib

/-!
# Verification of the siwe-recap capability library

Shallow embedding of the `siwe-recap` Rust crate (files `src/capability.rs`
and `src/ability.rs`, the ReCap protocol version that the specification's
claims reference) together with proofs about its specified behaviour.

Modelling conventions:
* Rust `String`/`str` values are Lean `String`s; byte-lexicographic
  comparison of UTF-8 strings is modelled as lexicographic comparison of
  their scalar-value sequences (the two orders agree, since UTF-8 byte
  order coincides with code-point order).
* `BTreeMap` is modelled as an association list sorted strictly by the
  key order, exactly the iteration order of the Rust tree.
* `Cid` (an external content-identifier type) is modelled by its
  canonical textual form, and `UriString` by its string form; their
  grammar validation lives in external crates that the specification
  excludes from the core.
* The generic note-bene payload `NB` is instantiated at its Rust default
  `serde_json::Value`, modelled by the `Json` type below (numeric
  payloads are modelled as integers).
-/

/-! ## Character-sequence ordering

Rust compares `str` values byte-lexicographically.  `charListLt` is that
order on the scalar-value sequence of a string: lexicographic with the
shorter sequence first when one is a proper prefix of the other. -/

def charListLt : List Char → List Char → Bool
  | _, [] => false
  | [], _ :: _ => true
  | a :: as, b :: bs =>
    if a.toNat < b.toNat then true
    else if b.toNat < a.toNat then false
    else charListLt as bs

/-- Byte-lexicographic order on strings, as Rust's `Ord for str`. -/
def strLt (a b : String) : Bool := charListLt a.data b.data

theorem Char.toNat_injective {a b : Char} (h : a.toNat = b.toNat) : a = b := by
  cases a; cases b
  simp only [Char.toNat] at h
  congr 1
  exact UInt32.ext h

theorem charListLt_irrefl (l : List Char) : charListLt l l = false := by
  induction l with
  | nil => rfl
  | cons a as ih => simp [charListLt, ih]

theorem charListLt_asymm {l m : List Char} (h : charListLt l m = true) :
    charListLt m l = false := by
  induction l generalizing m with
  | nil =>
    cases m with
    | nil => simp [charListLt] at h
    | cons b bs => rfl
  | cons a as ih =>
    cases m with
    | nil => simp [charListLt] at h
    | cons b bs =>
      by_cases hab : a.toNat < b.toNat
      · have : ¬ b.toNat < a.toNat := by omega
        simp [charListLt, hab, this]
      · by_cases hba : b.toNat < a.toNat
        · simp [charListLt, hab, hba] at h
        · simp [charListLt, hab, hba] at h ⊢
          exact ih h

theorem charListLt_trans {l m n : List Char} (h1 : charListLt l m = true)
    (h2 : charListLt m n = true) : charListLt l n = true := by
  induction l generalizing m n with
  | nil =>
    cases n with
    | nil =>
      cases m with
      | nil => simp [charListLt] at h1
      | cons b bs => simp [charListLt] at h2
    | cons c cs => rfl
  | cons a as ih =>
    cases m with
    | nil => simp [charListLt] at h1
    | cons b bs =>
      cases n with
      | nil => simp [charListLt] at h2
      | cons c cs =>
        by_cases hab : a.toNat < b.toNat
        · by_cases hbc : b.toNat < c.toNat
          · have : a.toNat < c.toNat := by omega
            simp [charListLt, this]
          · by_cases hcb : c.toNat < b.toNat
            · simp [charListLt, hbc, hcb] at h2
            · have hbceq : b.toNat = c.toNat := by omega
              have : a.toNat < c.toNat := by omega
              simp [charListLt, this]
        · by_cases hba : b.toNat < a.toNat
          · simp [charListLt, hab, hba] at h1
          · have haeq : a.toNat = b.toNat := by omega
            simp [charListLt, hab, hba] at h1
            by_cases hbc : b.toNat < c.toNat
            · have : a.toNat < c.toNat := by omega
              simp [charListLt, this]
            · by_cases hcb : c.toNat < b.toNat
              · simp [charListLt, hbc, hcb] at h2
              · have : ¬ a.toNat < c.toNat := by omega
                have h' : ¬ c.toNat < a.toNat := by omega
                simp [charListLt, this, h', hbc, hcb] at h2 ⊢
                exact ih h1 h2

theorem charListLt_total {l m : List Char} (h1 : charListLt l m = false)
    (h2 : charListLt m l = false) : l = m := by
  induction l generalizing m with
  | nil =>
    cases m with
    | nil => rfl
    | cons b bs => simp [charListLt] at h1
  | cons a as ih =>
    cases m with
    | nil => simp [charListLt] at h2
    | cons b bs =>
      by_cases hab : a.toNat < b.toNat
      · simp [charListLt, hab] at h1
      · by_cases hba : b.toNat < a.toNat
        · simp [charListLt, hba, hab] at h2
        · simp [charListLt, hab, hba] at h1 h2
          have : a = b := Char.toNat_injective (by omega)
          rw [this, ih h1 h2]

theorem strLt_irrefl (s : String) : strLt s s = false := charListLt_irrefl _

theorem strLt_asymm {a b : String} (h : strLt a b = true) : strLt b a = false :=
  charListLt_asymm h

theorem strLt_trans {a b c : String} (h1 : strLt a b = true)
    (h2 : strLt b c = true) : strLt a c = true := charListLt_trans h1 h2

theorem strLt_total {a b : String} (h1 : strLt a b = false)
    (h2 : strLt b a = false) : a = b := by
  cases a; cases b
  exact congrArg String.mk (charListLt_total h1 h2)

/-! ## Sorted association lists

`BTreeMap` is modelled as an association list strictly sorted by a
boolean order `lt`; `mapAlter` is the `entry(k).or_default()`‑then‑update
pattern and `mapGet` is `BTreeMap::get`. -/

section SortedMap

variable {κ β : Type} (lt : κ → κ → Bool)

/-- `entry(k)` update: insert `f none` at the sorted position, or replace
the bound value `v` by `f (some v)`. -/
def mapAlter (k : κ) (f : Option β → β) : List (κ × β) → List (κ × β)
  | [] => [(k, f none)]
  | (k1, v) :: rest =>
    if lt k k1 then (k, f none) :: (k1, v) :: rest
    else if lt k1 k then (k1, v) :: mapAlter k f rest
    else (k1, f (some v)) :: rest

/-- `BTreeMap::get`, by three-way comparison down the sorted list. -/
def mapGet (k : κ) : List (κ × β) → Option β
  | [] => none
  | (k1, v) :: rest =>
    if lt k k1 then none
    else if lt k1 k then mapGet k rest
    else some v

/-- Well-formed map: keys strictly increasing in `lt`. -/
def MapWF (m : List (κ × β)) : Prop :=
  List.Pairwise (fun a b => lt a.1 b.1 = true) m

end SortedMap

section SortedMapLemmas

variable {κ β : Type} {lt : κ → κ → Bool}

theorem lt_irrefl_of_asym (asym : ∀ a b : κ, lt a b = true → lt b a = false)
    (a : κ) : lt a a = false := by
  by_cases h : lt a a = true
  · exact asym a a h
  · simpa using h

theorem mapAlter_cons_lt {k k1 : κ} {v : β} {rest : List (κ × β)}
    {f : Option β → β} (h1 : lt k k1 = true) :
    mapAlter lt k f ((k1, v) :: rest) = (k, f none) :: (k1, v) :: rest := by
  simp [mapAlter, h1]

theorem mapAlter_cons_gt {k k1 : κ} {v : β} {rest : List (κ × β)}
    {f : Option β → β} (h1 : lt k k1 = false) (h2 : lt k1 k = true) :
    mapAlter lt k f ((k1, v) :: rest) = (k1, v) :: mapAlter lt k f rest := by
  simp [mapAlter, h1, h2]

theorem mapAlter_cons_eq {k k1 : κ} {v : β} {rest : List (κ × β)}
    {f : Option β → β} (h1 : lt k k1 = false) (h2 : lt k1 k = false) :
    mapAlter lt k f ((k1, v) :: rest) = (k1, f (some v)) :: rest := by
  simp [mapAlter, h1, h2]

theorem mapGet_cons_lt {k k1 : κ} {v : β} {rest : List (κ × β)}
    (h1 : lt k k1 = true) : mapGet lt k ((k1, v) :: rest) = none := by
  simp [mapGet, h1]

theorem mapGet_cons_gt {k k1 : κ} {v : β} {rest : List (κ × β)}
    (h1 : lt k k1 = false) (h2 : lt k1 k = true) :
    mapGet lt k ((k1, v) :: rest) = mapGet lt k rest := by
  simp [mapGet, h1, h2]

theorem mapGet_cons_eq {k k1 : κ} {v : β} {rest : List (κ × β)}
    (h1 : lt k k1 = false) (h2 : lt k1 k = false) :
    mapGet lt k ((k1, v) :: rest) = some v := by
  simp [mapGet, h1, h2]

theorem mapAlter_mem {m : List (κ × β)} {k : κ} {f : Option β → β}
    {p : κ × β} (h : p ∈ mapAlter lt k f m) :
    p.1 = k ∨ ∃ q ∈ m, p.1 = q.1 := by
  induction m with
  | nil =>
    simp [mapAlter] at h
    simp [h]
  | cons q rest ih =>
    obtain ⟨k1, v⟩ := q
    by_cases h1 : lt k k1
    · rw [mapAlter_cons_lt h1] at h
      rcases List.mem_cons.mp h with h | h
      · simp [h]
      · exact Or.inr ⟨p, h, rfl⟩
    · have h1' : lt k k1 = false := by simpa using h1
      by_cases h2 : lt k1 k
      · rw [mapAlter_cons_gt h1' h2] at h
        rcases List.mem_cons.mp h with h | h
        · exact Or.inr ⟨(k1, v), List.mem_cons_self _ _, by simp [h]⟩
        · rcases ih h with h' | ⟨q, hq, hq'⟩
          · exact Or.inl h'
          · exact Or.inr ⟨q, List.mem_cons_of_mem _ hq, hq'⟩
      · have h2' : lt k1 k = false := by simpa using h2
        rw [mapAlter_cons_eq h1' h2'] at h
        rcases List.mem_cons.mp h with h | h
        · exact Or.inr ⟨(k1, v), List.mem_cons_self _ _, by simp [h]⟩
        · exact Or.inr ⟨p, List.mem_cons_of_mem _ h, rfl⟩

theorem mapAlter_wf
    (trans : ∀ a b c : κ, lt a b = true → lt b c = true → lt a c = true)
    {m : List (κ × β)} (hm : MapWF lt m) (k : κ) (f : Option β → β) :
    MapWF lt (mapAlter lt k f m) := by
  induction m with
  | nil => simp [mapAlter, MapWF]
  | cons q rest ih =>
    obtain ⟨k1, v⟩ := q
    rw [MapWF, List.pairwise_cons] at hm
    obtain ⟨hlt, hrest⟩ := hm
    by_cases h1 : lt k k1
    · rw [MapWF, mapAlter_cons_lt h1]
      refine List.Pairwise.cons ?_ (List.Pairwise.cons hlt hrest)
      intro p hp
      rcases List.mem_cons.mp hp with hp | hp
      · simp [hp, h1]
      · exact trans _ _ _ h1 (hlt p hp)
    · have h1' : lt k k1 = false := by simpa using h1
      by_cases h2 : lt k1 k
      · rw [MapWF, mapAlter_cons_gt h1' h2]
        refine List.Pairwise.cons ?_ (ih hrest)
        intro p hp
        rcases mapAlter_mem hp with h' | ⟨q, hq, hq'⟩
        · rw [h']; exact h2
        · rw [hq']; exact hlt q hq
      · have h2' : lt k1 k = false := by simpa using h2
        rw [MapWF, mapAlter_cons_eq h1' h2']
        exact List.Pairwise.cons hlt hrest

theorem mapGet_alter_self
    (asym : ∀ a b : κ, lt a b = true → lt b a = false)
    {m : List (κ × β)} (k : κ) (f : Option β → β) :
    mapGet lt k (mapAlter lt k f m) = some (f (mapGet lt k m)) := by
  induction m with
  | nil => simp [mapAlter, mapGet, lt_irrefl_of_asym asym]
  | cons q rest ih =>
    obtain ⟨k1, v⟩ := q
    by_cases h1 : lt k k1
    · rw [mapAlter_cons_lt h1,
        mapGet_cons_eq (lt_irrefl_of_asym asym k) (lt_irrefl_of_asym asym k),
        mapGet_cons_lt h1]
    · have h1' : lt k k1 = false := by simpa using h1
      by_cases h2 : lt k1 k
      · rw [mapAlter_cons_gt h1' h2, mapGet_cons_gt h1' h2,
          mapGet_cons_gt h1' h2, ih]
      · have h2' : lt k1 k = false := by simpa using h2
        rw [mapAlter_cons_eq h1' h2', mapGet_cons_eq h1' h2',
          mapGet_cons_eq h1' h2']

theorem mapGet_alter_ne
    (asym : ∀ a b : κ, lt a b = true → lt b a = false)
    (trans : ∀ a b c : κ, lt a b = true → lt b c = true → lt a c = true)
    (total : ∀ a b : κ, lt a b = false → lt b a = false → a = b)
    {m : List (κ × β)} {k q : κ}
    (hne : lt k q = true ∨ lt q k = true) (f : Option β → β) :
    mapGet lt q (mapAlter lt k f m) = mapGet lt q m := by
  induction m with
  | nil =>
    rcases hne with h | h
    · simp [mapAlter, mapGet, asym _ _ h, h]
    · simp [mapAlter, mapGet, h]
  | cons p rest ih =>
    obtain ⟨k1, v⟩ := p
    by_cases h1 : lt k k1
    · rw [mapAlter_cons_lt h1]
      rcases hne with h | h
      · rw [mapGet_cons_gt (asym _ _ h) h]
      · rw [mapGet_cons_lt h, mapGet_cons_lt (trans _ _ _ h h1)]
    · have h1' : lt k k1 = false := by simpa using h1
      by_cases h2 : lt k1 k
      · rw [mapAlter_cons_gt h1' h2]
        by_cases hq1 : lt q k1
        · rw [mapGet_cons_lt hq1, mapGet_cons_lt hq1]
        · have hq1' : lt q k1 = false := by simpa using hq1
          by_cases hq2 : lt k1 q
          · rw [mapGet_cons_gt hq1' hq2, mapGet_cons_gt hq1' hq2, ih]
          · have hq2' : lt k1 q = false := by simpa using hq2
            rw [mapGet_cons_eq hq1' hq2', mapGet_cons_eq hq1' hq2']
      · have h2' : lt k1 k = false := by simpa using h2
        rw [mapAlter_cons_eq h1' h2']
        by_cases hq1 : lt q k1
        · rw [mapGet_cons_lt hq1, mapGet_cons_lt hq1]
        · have hq1' : lt q k1 = false := by simpa using hq1
          by_cases hq2 : lt k1 q
          · rw [mapGet_cons_gt hq1' hq2, mapGet_cons_gt hq1' hq2]
          · exfalso
            have hq2' : lt k1 q = false := by simpa using hq2
            have hk : k = k1 := total _ _ h1' h2'
            have hqe : q = k1 := total _ _ hq1' hq2'
            rcases hne with h | h
            · rw [hk, hqe, lt_irrefl_of_asym asym] at h; exact Bool.false_ne_true h
            · rw [hk, hqe, lt_irrefl_of_asym asym] at h; exact Bool.false_ne_true h

theorem mapAlter_append
    (asym : ∀ a b : κ, lt a b = true → lt b a = false)
    {m : List (κ × β)} {k : κ} (f : Option β → β)
    (h : ∀ p ∈ m, lt p.1 k = true) :
    mapAlter lt k f m = m ++ [(k, f none)] := by
  induction m with
  | nil => simp [mapAlter]
  | cons p rest ih =>
    obtain ⟨k1, v⟩ := p
    have hk1 : lt k1 k = true := h (k1, v) (List.mem_cons_self _ _)
    rw [mapAlter_cons_gt (asym _ _ hk1) hk1,
      ih (fun p hp => h p (List.mem_cons_of_mem _ hp))]
    rfl

/-- Rebuilding a strictly sorted association list by repeated sorted
insertion (the shape of a `BTreeMap` deserializer) returns the list
itself. -/
theorem foldl_alter_sorted
    (asym : ∀ a b : κ, lt a b = true → lt b a = false)
    {m acc : List (κ × β)} (h : MapWF lt (acc ++ m)) :
    m.foldl (fun a p => mapAlter lt p.1 (fun _ => p.2) a) acc = acc ++ m := by
  induction m generalizing acc with
  | nil => simp
  | cons p rest ih =>
    obtain ⟨k, v⟩ := p
    have hstep : mapAlter lt k (fun _ => v) acc = acc ++ [(k, v)] := by
      refine mapAlter_append asym _ (fun q hq => ?_)
      exact (List.pairwise_append.mp h).2.2 q hq (k, v) (List.mem_cons_self _ _)
    simp only [List.foldl_cons]
    rw [hstep]
    have hre : MapWF lt ((acc ++ [(k, v)]) ++ rest) := by
      rw [List.append_assoc]
      simpa using h
    rw [ih hre, List.append_assoc]
    rfl

end SortedMapLemmas

/-! ## Abilities (`src/ability.rs`)

`AbilityNamespace` and `AbilityName` are validated strings;
`Ability` is the pair, displayed as `namespace/name`. -/

structure AbilityNamespace where
  str : String
deriving DecidableEq, Repr

structure AbilityName where
  str : String
deriving DecidableEq, Repr

structure Ability where
  ns : AbilityNamespace
  name : AbilityName
deriving DecidableEq, Repr

def ALLOWED_CHARS : String := "-_.+*"

/-- Rust `char::is_alphanumeric` is a Unicode predicate of the standard
library (external to this crate); it is modelled on the ASCII fragment,
which covers every grammar constant and test vector of the crate. -/
def isAlphanumeric (c : Char) : Bool := c.isAlpha || c.isDigit

def not_allowed (c : Char) : Bool := !(isAlphanumeric c) && !(ALLOWED_CHARS.data.contains c)

inductive AbilityParseError where
  | InvalidCharacter (s : String)
deriving DecidableEq, Repr

inductive ActionParseError where
  | MissingSeparator
  | Namespace (e : AbilityParseError)
  | Name (e : AbilityParseError)
deriving DecidableEq, Repr

/-- `FromStr for AbilityNamespace`. -/
def AbilityNamespace.fromStr (s : String) : Except AbilityParseError AbilityNamespace :=
  if s.isEmpty || s.data.any not_allowed then .error (.InvalidCharacter s)
  else .ok ⟨s⟩

/-- `FromStr for AbilityName`. -/
def AbilityName.fromStr (s : String) : Except AbilityParseError AbilityName :=
  if s.isEmpty || s.data.any not_allowed then .error (.InvalidCharacter s)
  else .ok ⟨s⟩

/-- `str::split_once`: split at the first occurrence of `sep`. -/
def splitOnceList (sep : Char) : List Char → Option (List Char × List Char)
  | [] => none
  | c :: rest =>
    if c = sep then some ([], rest)
    else (splitOnceList sep rest).map (fun p => (c :: p.1, p.2))

def splitOnce (sep : Char) (s : String) : Option (String × String) :=
  (splitOnceList sep s.data).map (fun p => (⟨p.1⟩, ⟨p.2⟩))

/-- `FromStr for Ability`. -/
def Ability.fromStr (s : String) : Except ActionParseError Ability :=
  match splitOnce '/' s with
  | none => .error .MissingSeparator
  | some (nss, names) =>
    match AbilityNamespace.fromStr nss with
    | .error e => .error (.Namespace e)
    | .ok n =>
      match AbilityName.fromStr names with
      | .error e => .error (.Name e)
      | .ok m => .ok ⟨n, m⟩

/-- `Display for Ability`. -/
def Ability.display (a : Ability) : String := a.ns.str ++ "/" ++ a.name.str

/-- `Ability::len`: byte length of `namespace ++ "/" ++ name`. -/
def Ability.len (a : Ability) : Nat := a.ns.str.length + a.name.str.length + 1

/-- The logical character sequence `namespace ++ "/" ++ name` that
`Ord for Ability` iterates without allocating. -/
def Ability.seq (a : Ability) : List Char := a.ns.str.data ++ '/' :: a.name.str.data

/-- Comparison of the zipped prefix of two sequences, `Ordering.eq` when
either side runs out (the shape of the `for`-loop in `Ability::cmp`). -/
def zipCmp : List Char → List Char → Ordering
  | a :: as, b :: bs =>
    if a.toNat < b.toNat then .lt
    else if b.toNat < a.toNat then .gt
    else zipCmp as bs
  | _, _ => .eq

/-- `Ord for Ability`: compare the zipped byte sequences, then fall back
to `self.len().cmp(&other.len())`. -/
def Ability.cmp (a b : Ability) : Ordering :=
  match zipCmp a.seq b.seq with
  | .eq =>
    if a.len < b.len then .lt
    else if b.len < a.len then .gt
    else .eq
  | o => o

def Ability.ltb (a b : Ability) : Bool :=
  match Ability.cmp a b with
  | .lt => true
  | _ => false

/-- Lexicographic order on character sequences with the shorter sequence
first at a proper prefix: the order the specification asks `Ability` to
realise.  (Spec-side definition, compared against `Ability.cmp`.) -/
def lexCmp : List Char → List Char → Ordering
  | [], [] => .eq
  | [], _ :: _ => .lt
  | _ :: _, [] => .gt
  | a :: as, b :: bs =>
    if a.toNat < b.toNat then .lt
    else if b.toNat < a.toNat then .gt
    else lexCmp as bs

theorem zipCmp_then_len_eq_lexCmp (l m : List Char) :
    (match zipCmp l m with
     | .eq =>
       if l.length < m.length then Ordering.lt
       else if m.length < l.length then Ordering.gt
       else Ordering.eq
     | o => o) = lexCmp l m := by
  induction l generalizing m with
  | nil =>
    cases m with
    | nil => rfl
    | cons b bs => simp [zipCmp, lexCmp]
  | cons a as ih =>
    cases m with
    | nil => simp [zipCmp, lexCmp]
    | cons b bs =>
      by_cases hab : a.toNat < b.toNat
      · simp [zipCmp, lexCmp, hab]
      · by_cases hba : b.toNat < a.toNat
        · simp [zipCmp, lexCmp, hab, hba]
        · have := ih bs
          simp only [zipCmp, lexCmp, hab, hba, if_false, if_neg hab, if_neg hba]
          simpa using this

theorem Ability.cmp_eq_lexCmp (a b : Ability) :
    Ability.cmp a b = lexCmp a.seq b.seq := by
  have hl : ∀ x : Ability, x.len = x.seq.length := by
    intro x
    rw [Ability.len, Ability.seq, List.length_append, List.length_cons]
    show x.ns.str.data.length + x.name.str.data.length + 1 = _
    omega
  rw [Ability.cmp, hl, hl]
  exact zipCmp_then_len_eq_lexCmp a.seq b.seq

theorem lexCmp_self (l : List Char) : lexCmp l l = .eq := by
  induction l with
  | nil => rfl
  | cons a as ih => simp [lexCmp, ih]

theorem lexCmp_eq_iff {l m : List Char} : lexCmp l m = .eq ↔ l = m := by
  constructor
  · intro h
    induction l generalizing m with
    | nil => cases m with
      | nil => rfl
      | cons b bs => simp [lexCmp] at h
    | cons a as ih =>
      cases m with
      | nil => simp [lexCmp] at h
      | cons b bs =>
        by_cases hab : a.toNat < b.toNat
        · simp [lexCmp, hab] at h
        · by_cases hba : b.toNat < a.toNat
          · simp [lexCmp, hab, hba] at h
          · simp only [lexCmp, if_neg hab, if_neg hba] at h
            have : a = b := Char.toNat_injective (by omega)
            rw [this, ih h]
  · intro h; rw [h]; exact lexCmp_self m

theorem lexCmp_lt_eq_charListLt (l m : List Char) :
    (lexCmp l m = .lt) ↔ charListLt l m = true := by
  induction l generalizing m with
  | nil =>
    cases m with
    | nil => simp [lexCmp, charListLt]
    | cons b bs => simp [lexCmp, charListLt]
  | cons a as ih =>
    cases m with
    | nil => simp [lexCmp, charListLt]
    | cons b bs =>
      by_cases hab : a.toNat < b.toNat
      · simp [lexCmp, charListLt, hab]
      · by_cases hba : b.toNat < a.toNat
        · simp [lexCmp, charListLt, hab, hba]
        · simp [lexCmp, charListLt, hab, hba, ih]

theorem lexCmp_gt_iff {l m : List Char} : lexCmp l m = .gt ↔ lexCmp m l = .lt := by
  induction l generalizing m with
  | nil =>
    cases m with
    | nil => simp [lexCmp]
    | cons b bs => simp [lexCmp]
  | cons a as ih =>
    cases m with
    | nil => simp [lexCmp]
    | cons b bs =>
      by_cases hab : a.toNat < b.toNat
      · have : ¬ b.toNat < a.toNat := by omega
        simp [lexCmp, hab, this]
      · by_cases hba : b.toNat < a.toNat
        · simp [lexCmp, hab, hba]
        · simp [lexCmp, hab, hba, ih]

theorem Ability.ltb_eq_charListLt (a b : Ability) :
    Ability.ltb a b = charListLt a.seq b.seq := by
  rw [Ability.ltb, Ability.cmp_eq_lexCmp]
  by_cases h : charListLt a.seq b.seq = true
  · rw [(lexCmp_lt_eq_charListLt _ _).mpr h, h]
  · have h' : charListLt a.seq b.seq = false := by simpa using h
    rw [h']
    rcases ho : lexCmp a.seq b.seq with _ | _ | _
    · rw [(lexCmp_lt_eq_charListLt _ _).mp ho] at h'
      exact absurd h' (by simp)
    · rfl
    · rfl

theorem Ability.ltb_asymm {a b : Ability} (h : Ability.ltb a b = true) :
    Ability.ltb b a = false := by
  rw [Ability.ltb_eq_charListLt] at h ⊢
  exact charListLt_asymm h

theorem Ability.ltb_trans {a b c : Ability} (h1 : Ability.ltb a b = true)
    (h2 : Ability.ltb b c = true) : Ability.ltb a c = true := by
  rw [Ability.ltb_eq_charListLt] at h1 h2 ⊢
  exact charListLt_trans h1 h2

theorem Ability.ltb_seq_total {a b : Ability} (h1 : Ability.ltb a b = false)
    (h2 : Ability.ltb b a = false) : a.seq = b.seq := by
  rw [Ability.ltb_eq_charListLt] at h1 h2
  exact charListLt_total h1 h2

/- Fully applied forms of the order facts, convenient as arguments to
the generic map lemmas. -/

theorem strLt_asymm' : ∀ a b : String, strLt a b = true → strLt b a = false :=
  fun _ _ h => strLt_asymm h

theorem strLt_trans' : ∀ a b c : String,
    strLt a b = true → strLt b c = true → strLt a c = true :=
  fun _ _ _ h1 h2 => strLt_trans h1 h2

theorem strLt_total' : ∀ a b : String,
    strLt a b = false → strLt b a = false → a = b :=
  fun _ _ h1 h2 => strLt_total h1 h2

theorem Ability.ltb_asymm' : ∀ a b : Ability,
    Ability.ltb a b = true → Ability.ltb b a = false :=
  fun _ _ h => Ability.ltb_asymm h

theorem Ability.ltb_trans' : ∀ a b c : Ability,
    Ability.ltb a b = true → Ability.ltb b c = true → Ability.ltb a c = true :=
  fun _ _ _ h1 h2 => Ability.ltb_trans h1 h2

/-- A namespace or name half that `FromStr` accepts: non-empty, all
characters allowed. -/
def validPartB (s : String) : Bool := !s.isEmpty && s.data.all (fun c => !(not_allowed c))

def Ability.valid (a : Ability) : Bool := validPartB a.ns.str && validPartB a.name.str

theorem AbilityNamespace.fromStr_ns_of_valid {s : String} (h : validPartB s = true) :
    AbilityNamespace.fromStr s = .ok ⟨s⟩ := by
  rw [validPartB, Bool.and_eq_true] at h
  obtain ⟨he, ha⟩ := h
  have h1 : s.isEmpty = false := by
    cases hh : s.isEmpty
    · rfl
    · rw [hh] at he; exact absurd he (by simp)
  have h2 : s.data.any not_allowed = false := by
    rw [List.all_eq_true] at ha
    rw [List.any_eq_false]
    intro c hc
    have := ha c hc
    simpa using this
  rw [AbilityNamespace.fromStr, h1, h2]
  rfl

theorem AbilityName.fromStr_name_of_valid {s : String} (h : validPartB s = true) :
    AbilityName.fromStr s = .ok ⟨s⟩ := by
  rw [validPartB, Bool.and_eq_true] at h
  obtain ⟨he, ha⟩ := h
  have h1 : s.isEmpty = false := by
    cases hh : s.isEmpty
    · rfl
    · rw [hh] at he; exact absurd he (by simp)
  have h2 : s.data.any not_allowed = false := by
    rw [List.all_eq_true] at ha
    rw [List.any_eq_false]
    intro c hc
    have := ha c hc
    simpa using this
  rw [AbilityName.fromStr, h1, h2]
  rfl

theorem valid_not_sep {s : String} (h : validPartB s = true) : '/' ∉ s.data := by
  rw [validPartB, Bool.and_eq_true] at h
  intro hc
  have h2 := (List.all_eq_true.mp h.2) '/' hc
  have h3 : not_allowed '/' = true := by decide
  rw [h3] at h2
  exact absurd h2 (by simp)

theorem splitOnceList_append {nss names : List Char}
    (h : '/' ∉ nss) :
    splitOnceList '/' (nss ++ '/' :: names) = some (nss, names) := by
  induction nss with
  | nil => simp [splitOnceList]
  | cons c rest ih =>
    have hc : c ≠ '/' := by
      intro he; exact h (he ▸ List.mem_cons_self _ _)
    have hstep : splitOnceList '/' (c :: (rest ++ '/' :: names)) =
        (splitOnceList '/' (rest ++ '/' :: names)).map (fun p => (c :: p.1, p.2)) := by
      simp [splitOnceList, hc]
    rw [List.cons_append, hstep, ih (fun hm => h (List.mem_cons_of_mem _ hm))]
    rfl

/-- A valid ability survives the display/parse round trip: the basis of
the `DeserializeFromStr`/`SerializeDisplay` codec on map keys. -/
theorem Ability.fromStr_display {a : Ability} (h : a.valid = true) :
    Ability.fromStr a.display = .ok a := by
  rw [Ability.valid, Bool.and_eq_true] at h
  obtain ⟨hns, hname⟩ := h
  have hdata : a.display.data = a.ns.str.data ++ '/' :: a.name.str.data := by
    rw [Ability.display, String.data_append, String.data_append]
    show a.ns.str.data ++ ['/'] ++ a.name.str.data = _
    rw [List.append_assoc]
    rfl
  have hsplit : splitOnce '/' a.display = some (a.ns.str, a.name.str) := by
    rw [splitOnce, hdata, splitOnceList_append (valid_not_sep hns)]
    rfl
  simp only [Ability.fromStr, hsplit, AbilityNamespace.fromStr_ns_of_valid hns,
    AbilityName.fromStr_name_of_valid hname]

/-! ## JSON values and the capability model (`src/capability.rs`)

`Json` models `serde_json::Value` (numeric payloads as integers);
`Capability` is the aggregate of the attenuation map and the proof
list, with the generic note-bene payload at its default `Value`. -/

inductive Json where
  | null
  | bool (b : Bool)
  | num (n : Int)
  | str (s : String)
  | arr (xs : List Json)
  | obj (fields : List (String × Json))

/-- Content identifier (`cid::Cid`, external crate), modelled by its
canonical textual multibase form. -/
abbrev Cid := String

/-- `iri_string::types::UriString` (external crate), modelled by its
string form; URI grammar validation is external to the core. -/
abbrev Uri := String

/-- One note-bene record: `BTreeMap<String, NB>`, iterated in key order. -/
abbrev NbMap := List (String × Json)

/-- `NotaBene<NB> = Vec<BTreeMap<String, NB>>`. -/
abbrev NotaBene := List NbMap

/-- Derived `Ord` on the `AbilityNamespace` newtype: the string order. -/
def nsLtb (a b : AbilityNamespace) : Bool := charListLt a.str.data b.str.data

structure Capability where
  attenuations : List (Uri × List (Ability × NotaBene))
  proof : List Cid

/-- `Capability::new`. -/
def Capability.new : Capability := ⟨[], []⟩

/-- `Capability::with_action`: append note-benes to the (possibly newly
created) `(target, action)` slot. -/
def Capability.with_action (c : Capability) (target : Uri) (action : Ability)
    (nb : NotaBene) : Capability :=
  let att :=
    mapAlter strLt target
      (fun inner => mapAlter Ability.ltb action
        (fun cur => cur.getD [] ++ nb) (inner.getD []))
      c.attenuations
  { c with attenuations := att }

/-- `Capability::with_actions`: one target entry, then a loop of ability
entries. -/
def Capability.with_actions (c : Capability) (target : Uri)
    (abilities : List (Ability × NotaBene)) : Capability :=
  let att :=
    mapAlter strLt target
      (fun inner => abilities.foldl
        (fun m p => mapAlter Ability.ltb p.1 (fun cur => cur.getD [] ++ p.2) m)
        (inner.getD []))
      c.attenuations
  { c with attenuations := att }

/-- `Capability::with_proof`: push unless already present. -/
def Capability.with_proof (c : Capability) (p : Cid) : Capability :=
  if c.proof.contains p then c else { c with proof := c.proof ++ [p] }

/-- `Capability::with_proofs`. -/
def Capability.with_proofs (c : Capability) (ps : List Cid) : Capability :=
  ps.foldl (fun acc p =>
    if acc.proof.contains p then acc else { acc with proof := acc.proof ++ [p] }) c

/-- `Capability::merge`: dedup-union of proofs, deep union of
attenuations with `b`'s note-benes appended after `a`'s. -/
def Capability.merge (c other : Capability) : Capability :=
  { attenuations :=
      other.attenuations.foldl
        (fun acc p =>
          mapAlter strLt p.1
            (fun inner => p.2.foldl
              (fun m q => mapAlter Ability.ltb q.1 (fun cur => cur.getD [] ++ q.2) m)
              (inner.getD []))
            acc)
        c.attenuations,
    proof :=
      other.proof.foldl
        (fun acc p => if acc.contains p then acc else acc ++ [p]) c.proof }

/-- `Capability::can_do`: exact nested lookup. -/
def Capability.can_do (c : Capability) (target : Uri) (action : Ability) :
    Option NotaBene :=
  (mapGet strLt target c.attenuations).bind (fun m => mapGet Ability.ltb action m)

/-- `Capability::abilities`. -/
def Capability.abilities (c : Capability) : List (Uri × List (Ability × NotaBene)) :=
  c.attenuations

/-! ### Statement generation -/

/-- `Capability::to_line_groups`: iterate targets in map order; fold each
target's abilities into a `BTreeMap<&AbilityNamespace, Vec<&AbilityName>>`
by pushing names in ability order. -/
def Capability.to_line_groups (c : Capability) :
    List (Uri × AbilityNamespace × List AbilityName) :=
  c.attenuations.flatMap (fun p =>
    (p.2.foldl
      (fun m q => mapAlter nsLtb q.1.ns (fun cur => cur.getD [] ++ [q.1.name]) m)
      []).map (fun g => (p.1, g.1, g.2)))

def quoteStr (s : String) : String := "\"" ++ s ++ "\""

/-- `Capability::to_statement_lines`: render
`"<namespace>": "<name1>", "<name2>" for "<target>".` for each group. -/
def Capability.to_statement_lines (c : Capability) : List String :=
  c.to_line_groups.map (fun g =>
    quoteStr g.2.1.str ++ ": " ++
      String.intercalate ", " (g.2.2.map (fun an => quoteStr an.str)) ++
      " for " ++ quoteStr g.1 ++ ".")

def statementPreamble : String :=
  "I further authorize the stated URI to perform the following actions on my behalf:"

/-- `Capability::to_statement`: the preamble followed by every line
prefixed by a space and its 1-based index in parentheses. -/
def Capability.to_statement (c : Capability) : String :=
  statementPreamble ++
    String.join (c.to_statement_lines.enum.map
      (fun p => " (" ++ toString (p.1 + 1) ++ ") " ++ p.2))

/-! ### The serde codec

`Capability::encode` serializes with derived `Serialize` impls: field
names `att` and `prf`, `BTreeMap` keys through `Display` (`serde_as
DisplayFromStr`), `Ability` keys through `SerializeDisplay`.
`Capability::decode` inverts this with the derived `Deserialize` impls,
re-inserting map entries and re-parsing every key with `FromStr` (the
grammar of `UriString` targets and `Cid` proofs is validated by external
crates and modelled as accepting; `Ability` keys use the crate's own
grammar above). -/

def Capability.toJson (c : Capability) : Json :=
  .obj [("att", .obj (c.attenuations.map (fun p =>
            (p.1, Json.obj (p.2.map (fun q =>
              (q.1.display, Json.arr (q.2.map Json.obj)))))))),
        ("prf", .arr (c.proof.map Json.str))]

/-- `DecodingError` of `src/capability.rs`.  The payloads of
`Base64Decode` and `De` are external error types and carry no
information the claims consult; the first constructor is
`InvalidResourcePrefix` in the source. -/
inductive DecodingError where
  | InvalidResourcePfx (found : String)
  | Base64Decode
  | De
deriving DecidableEq, Repr

/-- serde struct field access: first field with the given name. -/
def jGet (fields : List (String × Json)) (k : String) : Option Json :=
  match fields with
  | [] => none
  | (k1, v) :: rest => if k1 = k then some v else jGet rest k

/-- Deserialize one `BTreeMap<String, NB>`: visit entries in order,
inserting each into the tree. -/
def parseNbMap : Json → Except DecodingError NbMap
  | .obj fields =>
    .ok (fields.foldl (fun a p => mapAlter strLt p.1 (fun _ => p.2) a) [])
  | _ => .error .De

/-- Deserialize `Vec<BTreeMap<String, NB>>` elementwise. -/
def parseNbs : List Json → Except DecodingError NotaBene
  | [] => .ok []
  | j :: rest =>
    match parseNbMap j with
    | .error e => .error e
    | .ok m =>
      match parseNbs rest with
      | .error e => .error e
      | .ok ms => .ok (m :: ms)

def parseNotaBene : Json → Except DecodingError NotaBene
  | .arr xs => parseNbs xs
  | _ => .error .De

/-- Deserialize `BTreeMap<Ability, NotaBene>`: each key re-parsed with
`FromStr for Ability` (grammar violations are deserialization errors),
entries inserted in visit order. -/
def parseAbilityEntries (acc : List (Ability × NotaBene)) :
    List (String × Json) → Except DecodingError (List (Ability × NotaBene))
  | [] => .ok acc
  | kv :: rest =>
    match Ability.fromStr kv.1 with
    | .error _ => .error .De
    | .ok ab =>
      match parseNotaBene kv.2 with
      | .error e => .error e
      | .ok nbs => parseAbilityEntries (mapAlter Ability.ltb ab (fun _ => nbs) acc) rest

def parseAbilityMap : Json → Except DecodingError (List (Ability × NotaBene))
  | .obj fields => parseAbilityEntries [] fields
  | _ => .error .De

/-- Deserialize the attenuation map `BTreeMap<UriString, _>`. -/
def parseAttEntries (acc : List (Uri × List (Ability × NotaBene))) :
    List (String × Json) → Except DecodingError (List (Uri × List (Ability × NotaBene)))
  | [] => .ok acc
  | kv :: rest =>
    match parseAbilityMap kv.2 with
    | .error e => .error e
    | .ok abs => parseAttEntries (mapAlter strLt kv.1 (fun _ => abs) acc) rest

def parseAtt : Json → Except DecodingError (List (Uri × List (Ability × NotaBene)))
  | .obj fields => parseAttEntries [] fields
  | _ => .error .De

/-- Deserialize `Vec<Cid>` (`serde_as Vec<DisplayFromStr>`) elementwise. -/
def parseCids : List Json → Except DecodingError (List Cid)
  | [] => .ok []
  | j :: rest =>
    match j with
    | .str s =>
      match parseCids rest with
      | .error e => .error e
      | .ok ss => .ok (s :: ss)
    | _ => .error .De

def parsePrf : Json → Except DecodingError (List Cid)
  | .arr xs => parseCids xs
  | _ => .error .De

/-- The derived `Deserialize for Capability`: expects a JSON object with
fields `att` and `prf`. -/
def Capability.fromJson (j : Json) : Except DecodingError Capability :=
  match j with
  | .obj fields =>
    match jGet fields "att", jGet fields "prf" with
    | some aj, some pj =>
      match parseAtt aj with
      | .error e => .error e
      | .ok att =>
        match parsePrf pj with
        | .error e => .error e
        | .ok prf => .ok ⟨att, prf⟩
    | _, _ => .error .De
  | _ => .error .De

/-! ### Well-formedness

Invariants every Rust-constructible `Capability` value has: both map
levels strictly sorted, every `Ability` key grammatical (in Rust an
`Ability` can only be obtained by parsing), every note-bene record
sorted, and the proof list duplicate-free. -/

def Capability.WF (c : Capability) : Prop :=
  MapWF strLt c.attenuations ∧
  (∀ p ∈ c.attenuations, MapWF Ability.ltb p.2 ∧
    ∀ q ∈ p.2, q.1.valid = true ∧ ∀ m ∈ q.2, MapWF strLt m) ∧
  c.proof.Nodup

/-! ### Codec round trip -/

theorem parseNbMap_roundtrip {m : NbMap} (h : MapWF strLt m) :
    parseNbMap (Json.obj m) = .ok m := by
  rw [parseNbMap]
  congr 1
  have := @foldl_alter_sorted String Json strLt strLt_asymm' m [] (by simpa using h)
  simpa using this

theorem parseNbs_roundtrip {nbs : NotaBene} (h : ∀ m ∈ nbs, MapWF strLt m) :
    parseNbs (nbs.map Json.obj) = .ok nbs := by
  induction nbs with
  | nil => rfl
  | cons m rest ih =>
    simp only [List.map_cons, parseNbs,
      parseNbMap_roundtrip (h m (List.mem_cons_self _ _)),
      ih (fun m' hm' => h m' (List.mem_cons_of_mem _ hm'))]

theorem parseAbilityEntries_roundtrip {abs acc : List (Ability × NotaBene)}
    (hwf : MapWF Ability.ltb (acc ++ abs))
    (hv : ∀ q ∈ abs, q.1.valid = true ∧ ∀ m ∈ q.2, MapWF strLt m) :
    parseAbilityEntries acc
      (abs.map (fun q => (q.1.display, Json.arr (q.2.map Json.obj)))) =
      .ok (acc ++ abs) := by
  induction abs generalizing acc with
  | nil => simp [parseAbilityEntries]
  | cons q rest ih =>
    obtain ⟨ab, nbs⟩ := q
    obtain ⟨hval, hnb⟩ := hv (ab, nbs) (List.mem_cons_self _ _)
    simp only [List.map_cons, parseAbilityEntries, Ability.fromStr_display hval,
      parseNotaBene, parseNbs_roundtrip hnb]
    have happ : mapAlter Ability.ltb ab (fun _ => nbs) acc = acc ++ [(ab, nbs)] := by
      refine mapAlter_append (fun a b hab => Ability.ltb_asymm hab) _ (fun p hp => ?_)
      exact (List.pairwise_append.mp hwf).2.2 p hp (ab, nbs) (List.mem_cons_self _ _)
    rw [happ]
    have hres := @ih (acc ++ [(ab, nbs)])
      (by rw [List.append_assoc]; simpa using hwf)
      (fun q hq => hv q (List.mem_cons_of_mem _ hq))
    rw [hres, List.append_assoc]
    rfl

theorem parseAttEntries_roundtrip {atts acc : List (Uri × List (Ability × NotaBene))}
    (hwf : MapWF strLt (acc ++ atts))
    (hv : ∀ p ∈ atts, MapWF Ability.ltb p.2 ∧
      ∀ q ∈ p.2, q.1.valid = true ∧ ∀ m ∈ q.2, MapWF strLt m) :
    parseAttEntries acc
      (atts.map (fun p => (p.1, Json.obj (p.2.map (fun q =>
        (q.1.display, Json.arr (q.2.map Json.obj))))))) =
      .ok (acc ++ atts) := by
  induction atts generalizing acc with
  | nil => simp [parseAttEntries]
  | cons p rest ih =>
    obtain ⟨uri, abs⟩ := p
    obtain ⟨habs, hq⟩ := hv (uri, abs) (List.mem_cons_self _ _)
    have hinner : parseAbilityMap (Json.obj (abs.map (fun q =>
        (q.1.display, Json.arr (q.2.map Json.obj))))) = .ok abs := by
      rw [parseAbilityMap]
      have := @parseAbilityEntries_roundtrip abs [] (by simpa using habs) hq
      simpa using this
    simp only [List.map_cons, parseAttEntries, hinner]
    have happ : mapAlter strLt uri (fun _ => abs) acc = acc ++ [(uri, abs)] := by
      refine mapAlter_append (fun a b hab => strLt_asymm hab) _ (fun p hp => ?_)
      exact (List.pairwise_append.mp hwf).2.2 p hp (uri, abs) (List.mem_cons_self _ _)
    rw [happ]
    have hres := @ih (acc ++ [(uri, abs)])
      (by rw [List.append_assoc]; simpa using hwf)
      (fun q hqq => hv q (List.mem_cons_of_mem _ hqq))
    rw [hres, List.append_assoc]
    rfl

theorem parseCids_roundtrip (ps : List Cid) :
    parseCids (ps.map Json.str) = .ok ps := by
  induction ps with
  | nil => rfl
  | cons p rest ih => simp [List.map_cons, parseCids, ih]

theorem parsePrf_roundtrip (ps : List Cid) :
    parsePrf (Json.arr (ps.map Json.str)) = .ok ps := by
  show parseCids (ps.map Json.str) = .ok ps
  exact parseCids_roundtrip ps

/-- The serde round trip at the level of the serialized structure: a
well-formed capability deserializes from its own serialization. -/
theorem Capability.fromJson_toJson {c : Capability} (h : c.WF) :
    Capability.fromJson (Capability.toJson c) = .ok c := by
  obtain ⟨h1, h2, _⟩ := h
  rw [Capability.toJson, Capability.fromJson]
  have e1 : jGet [("att", Json.obj (c.attenuations.map (fun p =>
      (p.1, Json.obj (p.2.map (fun q =>
        (q.1.display, Json.arr (q.2.map Json.obj)))))))),
      ("prf", Json.arr (c.proof.map Json.str))] "att" =
      some (Json.obj (c.attenuations.map (fun p =>
      (p.1, Json.obj (p.2.map (fun q =>
        (q.1.display, Json.arr (q.2.map Json.obj)))))))) := by
    simp [jGet]
  have e2 : jGet [("att", Json.obj (c.attenuations.map (fun p =>
      (p.1, Json.obj (p.2.map (fun q =>
        (q.1.display, Json.arr (q.2.map Json.obj)))))))),
      ("prf", Json.arr (c.proof.map Json.str))] "prf" =
      some (Json.arr (c.proof.map Json.str)) := by
    simp [jGet]
  have e3 : parseAtt (Json.obj (c.attenuations.map (fun p =>
      (p.1, Json.obj (p.2.map (fun q =>
        (q.1.display, Json.arr (q.2.map Json.obj)))))))) = .ok c.attenuations := by
    rw [parseAtt]
    have := @parseAttEntries_roundtrip c.attenuations [] (by simpa using h1) h2
    simpa using this
  simp only [e1, e2, e3, parsePrf_roundtrip]

/-! ### Constructible capabilities are well-formed -/

theorem mapAlter_forall {κ β : Type} {lt : κ → κ → Bool} {P : κ × β → Prop}
    {m : List (κ × β)} {k : κ} {f : Option β → β}
    (hm : ∀ p ∈ m, P p) (hnone : P (k, f none))
    (hsome : ∀ k1 v, (k1, v) ∈ m → P (k1, f (some v))) :
    ∀ p ∈ mapAlter lt k f m, P p := by
  induction m with
  | nil =>
    intro p hp
    simp [mapAlter] at hp
    rw [hp]; exact hnone
  | cons q rest ih =>
    obtain ⟨k1, v⟩ := q
    intro p hp
    by_cases h1 : lt k k1
    · rw [mapAlter_cons_lt h1] at hp
      rcases List.mem_cons.mp hp with hp | hp
      · rw [hp]; exact hnone
      · exact hm p hp
    · have h1' : lt k k1 = false := by simpa using h1
      by_cases h2 : lt k1 k
      · rw [mapAlter_cons_gt h1' h2] at hp
        rcases List.mem_cons.mp hp with hp | hp
        · rw [hp]; exact hm (k1, v) (List.mem_cons_self _ _)
        · exact ih (fun p hp => hm p (List.mem_cons_of_mem _ hp))
            (fun k2 v2 hv2 => hsome k2 v2 (List.mem_cons_of_mem _ hv2)) p hp
      · have h2' : lt k1 k = false := by simpa using h2
        rw [mapAlter_cons_eq h1' h2'] at hp
        rcases List.mem_cons.mp hp with hp | hp
        · rw [hp]; exact hsome k1 v (List.mem_cons_self _ _)
        · exact hm p (List.mem_cons_of_mem _ hp)

/-- Inserting note-benes for a valid ability preserves the inner-map
invariants. -/
theorem inner_alter_wf {abs : List (Ability × NotaBene)}
    (h1 : MapWF Ability.ltb abs)
    (h2 : ∀ q ∈ abs, q.1.valid = true ∧ ∀ m ∈ q.2, MapWF strLt m)
    {a : Ability} {nb : NotaBene} (ha : a.valid = true)
    (hnb : ∀ m ∈ nb, MapWF strLt m) :
    MapWF Ability.ltb (mapAlter Ability.ltb a (fun cur => cur.getD [] ++ nb) abs) ∧
    ∀ q ∈ mapAlter Ability.ltb a (fun cur => cur.getD [] ++ nb) abs,
      q.1.valid = true ∧ ∀ m ∈ q.2, MapWF strLt m := by
  constructor
  · exact mapAlter_wf Ability.ltb_trans' h1 _ _
  · refine mapAlter_forall h2 ?_ ?_
    · refine ⟨ha, ?_⟩
      intro m hm
      simp only [Option.getD_none, List.nil_append] at hm
      exact hnb m hm
    · intro k1 v hv
      obtain ⟨hval, hm⟩ := h2 (k1, v) hv
      refine ⟨hval, ?_⟩
      intro m hmm
      simp only [Option.getD_some] at hmm
      rcases List.mem_append.mp hmm with hmm | hmm
      · exact hm m hmm
      · exact hnb m hmm

/-- Folding a batch of valid ability insertions preserves the inner-map
invariants. -/
theorem inner_foldl_wf {abilities : List (Ability × NotaBene)}
    (hq : ∀ q ∈ abilities, q.1.valid = true ∧ ∀ m ∈ q.2, MapWF strLt m)
    {abs : List (Ability × NotaBene)}
    (h1 : MapWF Ability.ltb abs)
    (h2 : ∀ q ∈ abs, q.1.valid = true ∧ ∀ m ∈ q.2, MapWF strLt m) :
    MapWF Ability.ltb (abilities.foldl
      (fun m p => mapAlter Ability.ltb p.1 (fun cur => cur.getD [] ++ p.2) m) abs) ∧
    ∀ q ∈ abilities.foldl
      (fun m p => mapAlter Ability.ltb p.1 (fun cur => cur.getD [] ++ p.2) m) abs,
      q.1.valid = true ∧ ∀ m ∈ q.2, MapWF strLt m := by
  induction abilities generalizing abs with
  | nil => exact ⟨h1, h2⟩
  | cons q rest ih =>
    obtain ⟨hval, hnb⟩ := hq q (List.mem_cons_self _ _)
    have hstep := inner_alter_wf h1 h2 hval hnb
    exact ih (fun q hq' => hq q (List.mem_cons_of_mem _ hq')) hstep.1 hstep.2

/-- `Built c`: `c` arises from `Capability::new` by the builder
operations.  The side conditions record what the Rust type system
enforces: `Ability` values exist only by way of parsing (grammatical), and
note-bene records are `BTreeMap`s (sorted). -/
inductive Built : Capability → Prop where
  | new : Built Capability.new
  | with_action {c : Capability} {t : Uri} {a : Ability} {nb : NotaBene} :
      Built c → a.valid = true → (∀ m ∈ nb, MapWF strLt m) →
      Built (c.with_action t a nb)
  | with_actions {c : Capability} {t : Uri} {abilities : List (Ability × NotaBene)} :
      Built c → (∀ q ∈ abilities, q.1.valid = true ∧ ∀ m ∈ q.2, MapWF strLt m) →
      Built (c.with_actions t abilities)
  | with_proof {c : Capability} {p : Cid} : Built c → Built (c.with_proof p)
  | with_proofs {c : Capability} {ps : List Cid} : Built c → Built (c.with_proofs ps)
  | merge {a b : Capability} : Built a → Built b → Built (a.merge b)

theorem Capability.with_action_att (c : Capability) (t : Uri) (a : Ability)
    (nb : NotaBene) :
    (c.with_action t a nb).attenuations =
      mapAlter strLt t
        (fun inner => mapAlter Ability.ltb a
          (fun cur => cur.getD [] ++ nb) (inner.getD []))
        c.attenuations := rfl

theorem Capability.with_action_proof (c : Capability) (t : Uri) (a : Ability)
    (nb : NotaBene) : (c.with_action t a nb).proof = c.proof := rfl

theorem Capability.with_actions_att (c : Capability) (t : Uri)
    (abilities : List (Ability × NotaBene)) :
    (c.with_actions t abilities).attenuations =
      mapAlter strLt t
        (fun inner => abilities.foldl
          (fun m p => mapAlter Ability.ltb p.1 (fun cur => cur.getD [] ++ p.2) m)
          (inner.getD []))
        c.attenuations := rfl

theorem Capability.with_actions_proof (c : Capability) (t : Uri)
    (abilities : List (Ability × NotaBene)) :
    (c.with_actions t abilities).proof = c.proof := rfl

theorem Capability.with_proof_att (c : Capability) (p : Cid) :
    (c.with_proof p).attenuations = c.attenuations := by
  rw [Capability.with_proof]
  by_cases h : c.proof.contains p
  · rw [if_pos h]
  · rw [if_neg h]

theorem Capability.with_proof_proof (c : Capability) (p : Cid) :
    (c.with_proof p).proof =
      if c.proof.contains p then c.proof else c.proof ++ [p] := by
  rw [Capability.with_proof]
  by_cases h : c.proof.contains p
  · rw [if_pos h, if_pos h]
  · rw [if_neg h, if_neg h]

theorem Capability.with_proofs_att (c : Capability) (ps : List Cid) :
    (c.with_proofs ps).attenuations = c.attenuations := by
  induction ps generalizing c with
  | nil => rfl
  | cons p rest ih =>
    rw [Capability.with_proofs, List.foldl_cons]
    by_cases h : c.proof.contains p
    · simp only [h, if_true]
      exact ih c
    · simp only [h, if_false]
      exact ih { c with proof := c.proof ++ [p] }

theorem Capability.with_proofs_proof (c : Capability) (ps : List Cid) :
    (c.with_proofs ps).proof =
      ps.foldl (fun acc p => if acc.contains p then acc else acc ++ [p]) c.proof := by
  induction ps generalizing c with
  | nil => rfl
  | cons p rest ih =>
    rw [Capability.with_proofs, List.foldl_cons, List.foldl_cons]
    by_cases h : c.proof.contains p
    · simp only [h, if_true]
      exact ih c
    · simp only [h, if_false]
      exact ih { c with proof := c.proof ++ [p] }

theorem Capability.merge_att (c other : Capability) :
    (c.merge other).attenuations =
      other.attenuations.foldl
        (fun acc p =>
          mapAlter strLt p.1
            (fun inner => p.2.foldl
              (fun m q => mapAlter Ability.ltb q.1 (fun cur => cur.getD [] ++ q.2) m)
              (inner.getD []))
            acc)
        c.attenuations := rfl

theorem Capability.merge_proof (c other : Capability) :
    (c.merge other).proof =
      other.proof.foldl
        (fun acc p => if acc.contains p then acc else acc ++ [p]) c.proof := rfl

theorem proof_push_nodup {l : List Cid} (h : l.Nodup) (p : Cid) :
    (if l.contains p then l else l ++ [p]).Nodup := by
  by_cases hc : l.contains p
  · rw [if_pos hc]; exact h
  · have hp : p ∉ l := by
      intro hm
      exact hc (List.elem_iff.mpr hm)
    rw [if_neg hc]
    rw [List.nodup_append]
    refine ⟨h, List.nodup_singleton _, ?_⟩
    intro x hx hx'
    rw [List.mem_singleton] at hx'
    exact hp (hx' ▸ hx)

theorem dedupPush_foldl_nodup {ps : List Cid} {l : List Cid} (h : l.Nodup) :
    (ps.foldl (fun acc p => if acc.contains p then acc else acc ++ [p]) l).Nodup := by
  induction ps generalizing l with
  | nil => exact h
  | cons p rest ih =>
    rw [List.foldl_cons]
    exact ih (proof_push_nodup h p)

/-- Altering one target entry with an inner-invariant-preserving update
keeps the attenuation invariants. -/
theorem att_alter_wf {att : List (Uri × List (Ability × NotaBene))}
    (h1 : MapWF strLt att)
    (h2 : ∀ p ∈ att, MapWF Ability.ltb p.2 ∧
      ∀ q ∈ p.2, q.1.valid = true ∧ ∀ m ∈ q.2, MapWF strLt m)
    {t : Uri} {f : Option (List (Ability × NotaBene)) → List (Ability × NotaBene)}
    (hf : ∀ x : Option (List (Ability × NotaBene)),
      (∀ inner, x = some inner → MapWF Ability.ltb inner ∧
        ∀ q ∈ inner, q.1.valid = true ∧ ∀ m ∈ q.2, MapWF strLt m) →
      MapWF Ability.ltb (f x) ∧
        ∀ q ∈ f x, q.1.valid = true ∧ ∀ m ∈ q.2, MapWF strLt m) :
    MapWF strLt (mapAlter strLt t f att) ∧
    ∀ p ∈ mapAlter strLt t f att, MapWF Ability.ltb p.2 ∧
      ∀ q ∈ p.2, q.1.valid = true ∧ ∀ m ∈ q.2, MapWF strLt m := by
  constructor
  · exact mapAlter_wf strLt_trans' h1 _ _
  · refine mapAlter_forall h2 ?_ ?_
    · exact hf none (fun inner he => Option.noConfusion he)
    · intro k1 v hv
      refine hf (some v) (fun inner he => ?_)
      cases Option.some.inj he
      exact h2 (k1, v) hv

/-- The inner update used by `with_action`: start from the slot's map
(or an empty one) and insert one valid entry. -/
theorem inner_single_update_wf {a : Ability} {nb : NotaBene}
    (ha : a.valid = true) (hnb : ∀ m ∈ nb, MapWF strLt m)
    (x : Option (List (Ability × NotaBene)))
    (hx : ∀ inner, x = some inner → MapWF Ability.ltb inner ∧
      ∀ q ∈ inner, q.1.valid = true ∧ ∀ m ∈ q.2, MapWF strLt m) :
    MapWF Ability.ltb (mapAlter Ability.ltb a
      (fun cur => cur.getD [] ++ nb) (x.getD [])) ∧
    ∀ q ∈ mapAlter Ability.ltb a (fun cur => cur.getD [] ++ nb) (x.getD []),
      q.1.valid = true ∧ ∀ m ∈ q.2, MapWF strLt m := by
  cases x with
  | none => exact inner_alter_wf (by simp [MapWF]) (by simp) ha hnb
  | some inner =>
    obtain ⟨hi1, hi2⟩ := hx inner rfl
    exact inner_alter_wf (by simpa using hi1) (by simpa using hi2) ha hnb

/-- The inner update used by `with_actions` and `merge`:
start from the slot's map (or an empty one) and fold in valid entries. -/
theorem inner_update_wf {abilities : List (Ability × NotaBene)}
    (hq : ∀ q ∈ abilities, q.1.valid = true ∧ ∀ m ∈ q.2, MapWF strLt m)
    (x : Option (List (Ability × NotaBene)))
    (hx : ∀ inner, x = some inner → MapWF Ability.ltb inner ∧
      ∀ q ∈ inner, q.1.valid = true ∧ ∀ m ∈ q.2, MapWF strLt m) :
    MapWF Ability.ltb (abilities.foldl
      (fun m p => mapAlter Ability.ltb p.1 (fun cur => cur.getD [] ++ p.2) m)
      (x.getD [])) ∧
    ∀ q ∈ abilities.foldl
      (fun m p => mapAlter Ability.ltb p.1 (fun cur => cur.getD [] ++ p.2) m)
      (x.getD []),
      q.1.valid = true ∧ ∀ m ∈ q.2, MapWF strLt m := by
  cases x with
  | none =>
    refine inner_foldl_wf hq ?_ ?_
    · simp [MapWF]
    · simp
  | some inner =>
    obtain ⟨hi1, hi2⟩ := hx inner rfl
    exact inner_foldl_wf hq (by simpa using hi1) (by simpa using hi2)

/-- Folding `merge`'s per-target deep union over a well-formed
attenuation map preserves the attenuation invariants, provided every
merged-in entry is itself valid. -/
theorem att_merge_fold_wf {ps : List (Uri × List (Ability × NotaBene))}
    (hps : ∀ p ∈ ps, ∀ q ∈ p.2, q.1.valid = true ∧ ∀ m ∈ q.2, MapWF strLt m) :
    ∀ (att : List (Uri × List (Ability × NotaBene))),
      MapWF strLt att →
      (∀ p ∈ att, MapWF Ability.ltb p.2 ∧
        ∀ q ∈ p.2, q.1.valid = true ∧ ∀ m ∈ q.2, MapWF strLt m) →
      MapWF strLt (ps.foldl
        (fun acc p =>
          mapAlter strLt p.1
            (fun inner => p.2.foldl
              (fun m q => mapAlter Ability.ltb q.1 (fun cur => cur.getD [] ++ q.2) m)
              (inner.getD []))
            acc)
        att) ∧
      ∀ p ∈ ps.foldl
        (fun acc p =>
          mapAlter strLt p.1
            (fun inner => p.2.foldl
              (fun m q => mapAlter Ability.ltb q.1 (fun cur => cur.getD [] ++ q.2) m)
              (inner.getD []))
            acc)
        att, MapWF Ability.ltb p.2 ∧
          ∀ q ∈ p.2, q.1.valid = true ∧ ∀ m ∈ q.2, MapWF strLt m := by
  induction ps with
  | nil => intro att hw1 hw2; exact ⟨hw1, hw2⟩
  | cons p rest ih =>
    intro att hw1 hw2
    rw [List.foldl_cons]
    have hstep := att_alter_wf (t := p.1) hw1 hw2
      (fun x hx => inner_update_wf (hps p (List.mem_cons_self _ _)) x hx)
    exact ih (fun p' hp' => hps p' (List.mem_cons_of_mem _ hp')) _ hstep.1 hstep.2

theorem Built.wf {c : Capability} (h : Built c) : c.WF := by
  induction h with
  | new =>
    refine ⟨by simp [Capability.new, MapWF], by simp [Capability.new], by simp [Capability.new]⟩
  | with_action hb ha hnb ih =>
    obtain ⟨h1, h2, h3⟩ := ih
    refine ⟨?_, ?_, ?_⟩
    · rw [Capability.with_action_att]
      exact (att_alter_wf h1 h2 (fun x hx => inner_single_update_wf ha hnb x hx)).1
    · rw [Capability.with_action_att]
      exact (att_alter_wf h1 h2 (fun x hx => inner_single_update_wf ha hnb x hx)).2
    · rw [Capability.with_action_proof]
      exact h3
  | with_actions hb hq ih =>
    obtain ⟨h1, h2, h3⟩ := ih
    refine ⟨?_, ?_, ?_⟩
    · rw [Capability.with_actions_att]
      exact (att_alter_wf h1 h2 (fun x hx => inner_update_wf hq x hx)).1
    · rw [Capability.with_actions_att]
      exact (att_alter_wf h1 h2 (fun x hx => inner_update_wf hq x hx)).2
    · rw [Capability.with_actions_proof]
      exact h3
  | with_proof hb ih =>
    obtain ⟨h1, h2, h3⟩ := ih
    refine ⟨?_, ?_, ?_⟩
    · rw [Capability.with_proof_att]; exact h1
    · rw [Capability.with_proof_att]; exact h2
    · rw [Capability.with_proof_proof]; exact proof_push_nodup h3 _
  | with_proofs hb ih =>
    obtain ⟨h1, h2, h3⟩ := ih
    refine ⟨?_, ?_, ?_⟩
    · rw [Capability.with_proofs_att]; exact h1
    · rw [Capability.with_proofs_att]; exact h2
    · rw [Capability.with_proofs_proof]; exact dedupPush_foldl_nodup h3
  | @merge a b hba hbb iha ihb =>
    obtain ⟨ha1, ha2, ha3⟩ := iha
    obtain ⟨hb1, hb2, hb3⟩ := ihb
    have hfold := @att_merge_fold_wf b.attenuations
      (fun p hp => (hb2 p hp).2) a.attenuations ha1 ha2
    refine ⟨?_, ?_, ?_⟩
    · rw [Capability.merge_att]; exact hfold.1
    · rw [Capability.merge_att]; exact hfold.2
    · rw [Capability.merge_proof]
      exact dedupPush_foldl_nodup ha3

/-! ## Canonical text and base64 transport

`Capability::encode` is `serde_json::to_vec` followed by
`base64::encode_config(URL_SAFE_NO_PAD)`; `decode` is the inverse
pipeline.  Both primitives are external crates that the specification
excludes from the core; they are modelled concretely and executably
here: compact JSON text (strings escape `"`, `\` and control characters,
the latter uniformly as `\u00XX`), UTF-8 bytes, and the padding-free
URL-safe base64 alphabet. -/

def hexDigitChar (n : Nat) : Char :=
  if n < 10 then Char.ofNat (48 + n) else Char.ofNat (97 + n - 10)

def escapeChar (c : Char) : List Char :=
  if c = '"' then ['\\', '"']
  else if c = '\\' then ['\\', '\\']
  else if c.toNat < 0x20 then
    ['\\', 'u', '0', '0', hexDigitChar (c.toNat / 16), hexDigitChar (c.toNat % 16)]
  else [c]

def renderStringChars (s : String) : List Char :=
  '"' :: (s.data.flatMap escapeChar ++ ['"'])

/-- Decimal digits of a natural number (most significant first); the
fuel argument makes the recursion structural, `n < fuel` suffices. -/
def natDigitsAux : Nat → Nat → List Char
  | 0, _ => []
  | fuel+1, n =>
    if n < 10 then [Char.ofNat (48 + n)]
    else natDigitsAux fuel (n / 10) ++ [Char.ofNat (48 + n % 10)]

/-- serde_json's integer rendering: decimal, `-`-prefixed when negative. -/
def intRepr : Int → List Char
  | .ofNat m => natDigitsAux (m + 1) m
  | .negSucc m => '-' :: natDigitsAux (m + 2) (m + 1)

mutual

def Json.renderChars : Json → List Char
  | .null => "null".data
  | .bool true => "true".data
  | .bool false => "false".data
  | .num n => intRepr n
  | .str s => renderStringChars s
  | .arr xs => '[' :: (Json.renderList xs ++ [']'])
  | .obj fs => '\x7b' :: (Json.renderFields fs ++ ['\x7d'])

def Json.renderList : List Json → List Char
  | [] => []
  | [x] => Json.renderChars x
  | x :: y :: rest => Json.renderChars x ++ ',' :: Json.renderList (y :: rest)

def Json.renderFields : List (String × Json) → List Char
  | [] => []
  | [(k, v)] => renderStringChars k ++ ':' :: Json.renderChars v
  | (k, v) :: f :: rest =>
    renderStringChars k ++ ':' :: Json.renderChars v ++ ',' :: Json.renderFields (f :: rest)

end

def Json.render (j : Json) : String := ⟨j.renderChars⟩

def utf8EncodeChar (c : Char) : List Nat :=
  let n := c.toNat
  if n < 0x80 then [n]
  else if n < 0x800 then [0xC0 + n / 64, 0x80 + n % 64]
  else if n < 0x10000 then [0xE0 + n / 4096, 0x80 + n / 64 % 64, 0x80 + n % 64]
  else [0xF0 + n / 262144, 0x80 + n / 4096 % 64, 0x80 + n / 64 % 64, 0x80 + n % 64]

def utf8Encode (s : String) : List Nat := s.data.flatMap utf8EncodeChar

def validScalar (n : Nat) : Bool :=
  (n < 0xD800 || (0xE000 ≤ n && n < 0x110000))

def utf8DecodeAux : Nat → List Nat → Option (List Char)
  | _, [] => some []
  | 0, _ => none
  | fuel+1, b :: rest =>
    if b < 0x80 then (utf8DecodeAux fuel rest).map (fun cs => Char.ofNat b :: cs)
    else if b < 0xC2 then none
    else if b < 0xE0 then
      match rest with
      | b1 :: rest' =>
        if 0x80 ≤ b1 && b1 < 0xC0 then
          (utf8DecodeAux fuel rest').map
            (fun cs => Char.ofNat ((b - 0xC0) * 64 + (b1 - 0x80)) :: cs)
        else none
      | _ => none
    else if b < 0xF0 then
      match rest with
      | b1 :: b2 :: rest' =>
        if (0x80 ≤ b1 && b1 < 0xC0) && (0x80 ≤ b2 && b2 < 0xC0) then
          let n := (b - 0xE0) * 4096 + (b1 - 0x80) * 64 + (b2 - 0x80)
          if 0x800 ≤ n && validScalar n then
            (utf8DecodeAux fuel rest').map (fun cs => Char.ofNat n :: cs)
          else none
        else none
      | _ => none
    else if b < 0xF5 then
      match rest with
      | b1 :: b2 :: b3 :: rest' =>
        if ((0x80 ≤ b1 && b1 < 0xC0) && (0x80 ≤ b2 && b2 < 0xC0)) &&
            (0x80 ≤ b3 && b3 < 0xC0) then
          let n := (b - 0xF0) * 262144 + (b1 - 0x80) * 4096 + (b2 - 0x80) * 64 + (b3 - 0x80)
          if 0x10000 ≤ n && n < 0x110000 then
            (utf8DecodeAux fuel rest').map (fun cs => Char.ofNat n :: cs)
          else none
        else none
      | _ => none
    else none

def utf8Decode (bytes : List Nat) : Option String :=
  (utf8DecodeAux bytes.length bytes).map (fun cs => ⟨cs⟩)

def b64Char (n : Nat) : Char :=
  if n < 26 then Char.ofNat (65 + n)
  else if n < 52 then Char.ofNat (97 + n - 26)
  else if n < 62 then Char.ofNat (48 + n - 52)
  else if n = 62 then '-' else '_'

/-- `base64::encode_config(.., URL_SAFE_NO_PAD)` over byte values. -/
def b64EncodeBytes : List Nat → List Char
  | [] => []
  | [b0] => [b64Char (b0 / 4), b64Char (b0 % 4 * 16)]
  | [b0, b1] =>
    [b64Char (b0 / 4), b64Char (b0 % 4 * 16 + b1 / 16), b64Char (b1 % 16 * 4)]
  | b0 :: b1 :: b2 :: rest =>
    b64Char (b0 / 4) :: b64Char (b0 % 4 * 16 + b1 / 16) ::
      b64Char (b1 % 16 * 4 + b2 / 64) :: b64Char (b2 % 64) :: b64EncodeBytes rest

def b64CharVal (c : Char) : Option Nat :=
  let n := c.toNat
  if 65 ≤ n && n ≤ 90 then some (n - 65)
  else if 97 ≤ n && n ≤ 122 then some (n - 97 + 26)
  else if 48 ≤ n && n ≤ 57 then some (n - 48 + 52)
  else if n = 45 then some 62
  else if n = 95 then some 63
  else none

/-- `base64::decode_config(.., URL_SAFE_NO_PAD)`: groups of four symbols,
a trailing group of two or three, non-canonical trailing bits rejected. -/
def b64DecodeChars : List Char → Option (List Nat)
  | [] => some []
  | [_] => none
  | [c0, c1] =>
    match b64CharVal c0, b64CharVal c1 with
    | some v0, some v1 =>
      if v1 % 16 = 0 then some [v0 * 4 + v1 / 16] else none
    | _, _ => none
  | [c0, c1, c2] =>
    match b64CharVal c0, b64CharVal c1, b64CharVal c2 with
    | some v0, some v1, some v2 =>
      if v2 % 4 = 0 then some [v0 * 4 + v1 / 16, v1 % 16 * 16 + v2 / 4] else none
    | _, _, _ => none
  | c0 :: c1 :: c2 :: c3 :: rest =>
    match b64CharVal c0, b64CharVal c1, b64CharVal c2, b64CharVal c3 with
    | some v0, some v1, some v2, some v3 =>
      (b64DecodeChars rest).map
        (fun bs => (v0 * 4 + v1 / 16) :: (v1 % 16 * 16 + v2 / 4) :: (v2 % 4 * 64 + v3) :: bs)
    | _, _, _, _ => none

/-! ### JSON text parser (the shape of `serde_json::from_slice` on the
compact output above; whitespace-free, numbers as integers) -/

def parseHexDigit (c : Char) : Option Nat :=
  let n := c.toNat
  if 48 ≤ n && n ≤ 57 then some (n - 48)
  else if 97 ≤ n && n ≤ 102 then some (n - 97 + 10)
  else if 65 ≤ n && n ≤ 70 then some (n - 65 + 10)
  else none

def parseStringBody : Nat → List Char → Option (List Char × List Char)
  | 0, _ => none
  | _+1, [] => none
  | fuel+1, c :: rest =>
    if c = '"' then some ([], rest)
    else if c = '\\' then
      match rest with
      | [] => none
      | e :: rest' =>
        if e = '"' then
          (parseStringBody fuel rest').map (fun p => ('"' :: p.1, p.2))
        else if e = '\\' then
          (parseStringBody fuel rest').map (fun p => ('\\' :: p.1, p.2))
        else if e = '/' then
          (parseStringBody fuel rest').map (fun p => ('/' :: p.1, p.2))
        else if e = 'b' then
          (parseStringBody fuel rest').map (fun p => ('\x08' :: p.1, p.2))
        else if e = 'f' then
          (parseStringBody fuel rest').map (fun p => ('\x0c' :: p.1, p.2))
        else if e = 'n' then
          (parseStringBody fuel rest').map (fun p => ('\n' :: p.1, p.2))
        else if e = 'r' then
          (parseStringBody fuel rest').map (fun p => ('\r' :: p.1, p.2))
        else if e = 't' then
          (parseStringBody fuel rest').map (fun p => ('\t' :: p.1, p.2))
        else if e = 'u' then
          match rest' with
          | h1 :: h2 :: h3 :: h4 :: rest'' =>
            match parseHexDigit h1, parseHexDigit h2, parseHexDigit h3, parseHexDigit h4 with
            | some d1, some d2, some d3, some d4 =>
              let n := ((d1 * 16 + d2) * 16 + d3) * 16 + d4
              if validScalar n then
                (parseStringBody fuel rest'').map (fun p => (Char.ofNat n :: p.1, p.2))
              else none
            | _, _, _, _ => none
          | _ => none
        else none
    else (parseStringBody fuel rest).map (fun p => (c :: p.1, p.2))

def isDigitChar (c : Char) : Bool := 48 ≤ c.toNat && c.toNat ≤ 57

def digitsToNat (ds : List Char) : Nat :=
  ds.foldl (fun a c => a * 10 + (c.toNat - 48)) 0

def parseNumber (cs : List Char) : Option (Int × List Char) :=
  match cs with
  | '-' :: rest =>
    let ds := rest.takeWhile isDigitChar
    if ds.isEmpty then none
    else some (-(digitsToNat ds : Int), rest.dropWhile isDigitChar)
  | _ =>
    let ds := cs.takeWhile isDigitChar
    if ds.isEmpty then none
    else some ((digitsToNat ds : Int), cs.dropWhile isDigitChar)

mutual

def parseVal : Nat → List Char → Option (Json × List Char)
  | 0, _ => none
  | fuel+1, cs =>
    match cs with
    | 'n' :: 'u' :: 'l' :: 'l' :: rest => some (.null, rest)
    | 't' :: 'r' :: 'u' :: 'e' :: rest => some (.bool true, rest)
    | 'f' :: 'a' :: 'l' :: 's' :: 'e' :: rest => some (.bool false, rest)
    | '"' :: rest =>
      (parseStringBody (fuel+1) rest).map (fun p => (.str ⟨p.1⟩, p.2))
    | '[' :: ']' :: rest => some (.arr [], rest)
    | '[' :: rest =>
      (parseElems fuel rest).map (fun p => (.arr p.1, p.2))
    | '\x7b' :: '\x7d' :: rest => some (.obj [], rest)
    | '\x7b' :: rest =>
      (parseFields fuel rest).map (fun p => (.obj p.1, p.2))
    | _ =>
      (parseNumber cs).map (fun p => (.num p.1, p.2))

def parseElems : Nat → List Char → Option (List Json × List Char)
  | 0, _ => none
  | fuel+1, cs =>
    match parseVal fuel cs with
    | none => none
    | some (v, rest) =>
      match rest with
      | ',' :: rest' =>
        (parseElems fuel rest').map (fun p => (v :: p.1, p.2))
      | ']' :: rest' => some ([v], rest')
      | _ => none

def parseFields : Nat → List Char → Option (List (String × Json) × List Char)
  | 0, _ => none
  | fuel+1, cs =>
    match cs with
    | '"' :: rest =>
      match parseStringBody (fuel+1) rest with
      | none => none
      | some (key, rest1) =>
        match rest1 with
        | ':' :: rest2 =>
          match parseVal fuel rest2 with
          | none => none
          | some (v, rest3) =>
            match rest3 with
            | ',' :: rest4 =>
              (parseFields fuel rest4).map (fun p => ((⟨key⟩, v) :: p.1, p.2))
            | '\x7d' :: rest4 => some ([(⟨key⟩, v)], rest4)
            | _ => none
        | _ => none
    | _ => none

end

def Json.parse (s : String) : Option Json :=
  match parseVal (2 * s.data.length + 4) s.data with
  | some (j, []) => some j
  | _ => none

/-! ### Transport roundtrips (for the C1 decode-of-encode law) -/

def noDigitHead : List Char → Bool
  | [] => true
  | c :: _ => !isDigitChar c

theorem charOfNat_toNat {n : Nat} (h : n < 0xD800) : (Char.ofNat n).toNat = n := by
  have hv : n.isValidChar := Or.inl h
  rw [Char.ofNat, dif_pos hv]
  rfl

theorem natDigitsAux_digits {fuel n : Nat} (h : n < fuel) :
    ∀ c ∈ natDigitsAux fuel n, isDigitChar c = true := by
  induction fuel generalizing n with
  | zero => omega
  | succ f ih =>
    intro c hc
    rw [natDigitsAux] at hc
    by_cases h10 : n < 10
    · rw [if_pos h10] at hc
      simp only [List.mem_singleton] at hc
      rw [hc, isDigitChar]
      have : (Char.ofNat (48 + n)).toNat = 48 + n := charOfNat_toNat (by omega)
      simp only [this]
      simp
      omega
    · rw [if_neg h10] at hc
      rcases List.mem_append.mp hc with hc | hc
      · exact ih (by omega) c hc
      · simp only [List.mem_singleton] at hc
        rw [hc, isDigitChar]
        have : (Char.ofNat (48 + n % 10)).toNat = 48 + n % 10 :=
          charOfNat_toNat (by omega)
        simp only [this]
        simp
        omega

theorem natDigitsAux_ne_nil {fuel n : Nat} (h : n < fuel) :
    natDigitsAux fuel n ≠ [] := by
  cases fuel with
  | zero => omega
  | succ f =>
    rw [natDigitsAux]
    by_cases h10 : n < 10
    · rw [if_pos h10]; simp
    · rw [if_neg h10]; simp

theorem digitsToNat_append_single (l : List Char) (c : Char) :
    digitsToNat (l ++ [c]) = digitsToNat l * 10 + (c.toNat - 48) := by
  rw [digitsToNat, List.foldl_append]
  rfl

theorem digitsToNat_natDigitsAux {fuel n : Nat} (h : n < fuel) :
    digitsToNat (natDigitsAux fuel n) = n := by
  induction fuel generalizing n with
  | zero => omega
  | succ f ih =>
    rw [natDigitsAux]
    by_cases h10 : n < 10
    · rw [if_pos h10]
      have : (Char.ofNat (48 + n)).toNat = 48 + n := charOfNat_toNat (by omega)
      rw [digitsToNat]
      simp [this]
    · rw [if_neg h10, digitsToNat_append_single, ih (by omega)]
      have : (Char.ofNat (48 + n % 10)).toNat = 48 + n % 10 :=
        charOfNat_toNat (by omega)
      rw [this]
      omega

theorem takeWhile_digits_append {l rest : List Char}
    (hl : ∀ c ∈ l, isDigitChar c = true) (hr : noDigitHead rest = true) :
    (l ++ rest).takeWhile isDigitChar = l ∧
      (l ++ rest).dropWhile isDigitChar = rest := by
  induction l with
  | nil =>
    simp only [List.nil_append]
    cases rest with
    | nil => simp
    | cons c cs =>
      rw [noDigitHead] at hr
      simp only [Bool.not_eq_true'] at hr
      constructor
      · simp [List.takeWhile_cons, hr]
      · simp [List.dropWhile_cons, hr]
  | cons a l' ih =>
    have ha : isDigitChar a = true := hl a (by simp)
    have ih' := ih (fun c hc => hl c (by simp [hc]))
    constructor
    · rw [List.cons_append, List.takeWhile_cons, ha]
      simp [ih'.1]
    · rw [List.cons_append, List.dropWhile_cons, ha]
      simp [ih'.2]

theorem parseNumber_intRepr (n : Int) (rest : List Char)
    (hr : noDigitHead rest = true) :
    parseNumber (intRepr n ++ rest) = some (n, rest) := by
  cases n with
  | ofNat m =>
    rw [intRepr]
    have hd := natDigitsAux_digits (Nat.lt_succ_self m)
    have htd := takeWhile_digits_append hd hr
    obtain ⟨c, cs, hcs⟩ : ∃ c cs, natDigitsAux (m+1) m = c :: cs := by
      cases he : natDigitsAux (m+1) m with
      | nil => exact absurd he (natDigitsAux_ne_nil (Nat.lt_succ_self m))
      | cons c cs => exact ⟨c, cs, rfl⟩
    have hcne : c ≠ '-' := by
      intro he
      have := hd c (by rw [hcs]; simp)
      rw [he] at this
      simp [isDigitChar] at this
    rw [hcs]
    rw [hcs] at htd
    rw [parseNumber]
    · simp only [htd.1, htd.2, List.isEmpty_cons, if_neg]
      rw [← hcs, digitsToNat_natDigitsAux (Nat.lt_succ_self m)]
      simp
    · intro r he
      exact hcne (List.cons.inj he).1
  | negSucc m =>
    rw [intRepr]
    have hd := natDigitsAux_digits (Nat.lt_succ_self (m+1))
    have htd := takeWhile_digits_append hd hr
    rw [List.cons_append, parseNumber]
    simp only [htd.1, htd.2]
    have hne := natDigitsAux_ne_nil (Nat.lt_succ_self (m+1))
    rw [digitsToNat_natDigitsAux (Nat.lt_succ_self (m+1))]
    have : (natDigitsAux (m+2) (m+1)).isEmpty = false := by
      cases he : natDigitsAux (m+2) (m+1) with
      | nil => exact absurd he hne
      | cons c cs => rfl
    rw [this]
    simp only [if_neg Bool.false_ne_true]
    have hneg : -((m + 1 : Nat) : Int) = Int.negSucc m := by
      rw [Int.negSucc_eq]
      push_cast
      ring
    rw [hneg]

theorem parseHexDigit_hexDigitChar : ∀ d, d < 16 → parseHexDigit (hexDigitChar d) = some d := by
  decide

theorem parseStringBody_hexEsc (f : Nat) (h1 h2 : Char) (d3 d4 : Nat)
    (e3 : parseHexDigit h1 = some d3) (e4 : parseHexDigit h2 = some d4)
    (X : List Char) :
    parseStringBody (f+1) ('\\' :: 'u' :: '0' :: '0' :: h1 :: h2 :: X) =
      (if validScalar (d3 * 16 + d4) then
        (parseStringBody f X).map
          (fun p => (Char.ofNat (d3 * 16 + d4) :: p.1, p.2))
       else none) := by
  have e0 : parseHexDigit '0' = some 0 := rfl
  simp [parseStringBody, e0, e3, e4]

theorem parseStringBody_escape (s : List Char) :
    ∀ fuel rest, (s.flatMap escapeChar).length + 1 ≤ fuel →
      parseStringBody fuel (s.flatMap escapeChar ++ '"' :: rest) = some (s, rest) := by
  induction s with
  | nil =>
    intro fuel rest hf
    cases fuel with
    | zero => omega
    | succ f =>
      simp only [List.flatMap_nil, List.nil_append]
      rfl
  | cons c s' ih =>
    intro fuel rest hf
    rw [List.flatMap_cons] at hf ⊢
    by_cases h1 : c = '"'
    · subst h1
      rw [escapeChar, if_pos rfl] at hf ⊢
      simp only [List.length_cons, List.length_append, List.length_nil] at hf
      cases fuel with
      | zero => omega
      | succ f =>
        simp only [List.cons_append, List.nil_append, List.append_assoc]
        have heq : parseStringBody (f+1)
            ('\\' :: '"' :: (s'.flatMap escapeChar ++ '"' :: rest)) =
            (parseStringBody f (s'.flatMap escapeChar ++ '"' :: rest)).map
              (fun p => ('"' :: p.1, p.2)) := rfl
        rw [heq, ih f rest (by omega)]
        rfl
    · by_cases h2 : c = '\\'
      · subst h2
        rw [escapeChar, if_neg (by decide), if_pos rfl] at hf ⊢
        simp only [List.length_cons, List.length_append, List.length_nil] at hf
        cases fuel with
        | zero => omega
        | succ f =>
          simp only [List.cons_append, List.nil_append, List.append_assoc]
          have heq : parseStringBody (f+1)
              ('\\' :: '\\' :: (s'.flatMap escapeChar ++ '"' :: rest)) =
              (parseStringBody f (s'.flatMap escapeChar ++ '"' :: rest)).map
                (fun p => ('\\' :: p.1, p.2)) := rfl
          rw [heq, ih f rest (by omega)]
          rfl
      · by_cases h3 : c.toNat < 0x20
        · rw [escapeChar, if_neg h1, if_neg h2, if_pos h3] at hf ⊢
          simp only [List.length_cons, List.length_append, List.length_nil] at hf
          cases fuel with
          | zero => omega
          | succ f =>
            simp only [List.cons_append, List.nil_append, List.append_assoc]
            have e3 := parseHexDigit_hexDigitChar (c.toNat / 16) (by omega)
            have e4 := parseHexDigit_hexDigitChar (c.toNat % 16) (by omega)
            rw [parseStringBody_hexEsc f _ _ _ _ e3 e4]
            have hv : c.toNat / 16 * 16 + c.toNat % 16 = c.toNat := by omega
            rw [hv]
            have hvs : validScalar c.toNat = true := by
              rw [validScalar]
              simp
              omega
            rw [if_pos hvs, ih f rest (by omega), Char.ofNat_toNat]
            rfl
        · rw [escapeChar, if_neg h1, if_neg h2, if_neg h3] at hf ⊢
          simp only [List.length_cons, List.length_append, List.length_nil] at hf
          cases fuel with
          | zero => omega
          | succ f =>
            simp only [List.cons_append, List.nil_append]
            simp only [parseStringBody]
            rw [if_neg h1, if_neg h2]
            rw [ih f rest (by omega)]
            rfl


theorem parseVal_quote (fuel : Nat) (X : List Char) :
    parseVal (fuel+1) ('"' :: X) =
      (parseStringBody (fuel+1) X).map (fun p => (Json.str ⟨p.1⟩, p.2)) := rfl

theorem parseVal_openObj (fuel : Nat) (X : List Char) :
    parseVal (fuel+1) ('\x7b' :: '"' :: X) =
      (parseFields fuel ('"' :: X)).map (fun p => (Json.obj p.1, p.2)) := rfl

theorem parseVal_dash (fuel : Nat) (X : List Char) :
    parseVal (fuel+1) ('-' :: X) =
      (parseNumber ('-' :: X)).map (fun p => (Json.num p.1, p.2)) := rfl

set_option maxHeartbeats 1000000 in
theorem parseVal_openArr {fuel : Nat} {c : Char} {X : List Char} (h : c ≠ ']') :
    parseVal (fuel+1) ('[' :: c :: X) =
      (parseElems fuel (c :: X)).map (fun p => (Json.arr p.1, p.2)) := by
  rw [parseVal.eq_def]
  split
  all_goals try split
  all_goals simp_all

set_option maxHeartbeats 1000000 in
theorem parseVal_digit {fuel : Nat} {c : Char} {X : List Char}
    (h : isDigitChar c = true) :
    parseVal (fuel+1) (c :: X) =
      (parseNumber (c :: X)).map (fun p => (Json.num p.1, p.2)) := by
  rw [parseVal.eq_def]
  split
  all_goals try split
  all_goals simp_all [isDigitChar]

theorem renderChars_head (j : Json) :
    ∃ c cs, Json.renderChars j = c :: cs ∧ c ≠ ']' := by
  cases j with
  | null => exact ⟨'n', _, rfl, by decide⟩
  | bool b =>
    cases b with
    | true => exact ⟨'t', _, rfl, by decide⟩
    | false => exact ⟨'f', _, rfl, by decide⟩
  | num n =>
    cases n with
    | ofNat m =>
      obtain ⟨c, cs, hcs⟩ : ∃ c cs, natDigitsAux (m+1) m = c :: cs := by
        cases he : natDigitsAux (m+1) m with
        | nil => exact absurd he (natDigitsAux_ne_nil (Nat.lt_succ_self m))
        | cons c cs => exact ⟨c, cs, rfl⟩
      have hd : isDigitChar c = true :=
        natDigitsAux_digits (Nat.lt_succ_self m) c (by rw [hcs]; simp)
      refine ⟨c, cs, by rw [show Json.renderChars (Json.num (Int.ofNat m)) =
        natDigitsAux (m+1) m from rfl, hcs], ?_⟩
      intro he
      rw [he] at hd
      exact absurd hd (by decide)
    | negSucc m => exact ⟨'-', _, rfl, by decide⟩
  | str s => exact ⟨'"', _, rfl, by decide⟩
  | arr xs => exact ⟨'[', _, rfl, by decide⟩
  | obj fs => exact ⟨'\x7b', _, rfl, by decide⟩

theorem renderList_head (x : Json) (t : List Json) :
    ∃ c cs, Json.renderList (x :: t) = c :: cs ∧ c ≠ ']' := by
  obtain ⟨c, cs, hcs, hne⟩ := renderChars_head x
  cases t with
  | nil =>
    exact ⟨c, cs, by rw [show Json.renderList [x] = Json.renderChars x from rfl, hcs], hne⟩
  | cons y r =>
    refine ⟨c, cs ++ ',' :: Json.renderList (y :: r), ?_, hne⟩
    rw [show Json.renderList (x :: y :: r) =
      Json.renderChars x ++ ',' :: Json.renderList (y :: r) from rfl, hcs, List.cons_append]

theorem renderFields_cons_form (k : String) (v : Json) (t : List (String × Json)) :
    ∃ tail, Json.renderFields ((k, v) :: t) = '"' :: tail := by
  cases t with
  | nil => exact ⟨_, rfl⟩
  | cons f2 r => exact ⟨_, rfl⟩

theorem parse_render_aux (fuel : Nat) :
    (∀ (j : Json) (rest : List Char),
        2 * (Json.renderChars j).length + 1 ≤ fuel → noDigitHead rest = true →
        parseVal fuel (Json.renderChars j ++ rest) = some (j, rest)) ∧
    (∀ (xs : List Json) (rest : List Char), xs ≠ [] →
        2 * (Json.renderList xs).length + 2 ≤ fuel →
        parseElems fuel (Json.renderList xs ++ ']' :: rest) = some (xs, rest)) ∧
    (∀ (fs : List (String × Json)) (rest : List Char), fs ≠ [] →
        2 * (Json.renderFields fs).length + 2 ≤ fuel →
        parseFields fuel (Json.renderFields fs ++ '\x7d' :: rest) = some (fs, rest)) := by
  induction fuel with
  | zero =>
    refine ⟨?_, ?_, ?_⟩
    · intro j rest h1 h2
      exact absurd h1 (by omega)
    · intro xs rest hne h
      exact absurd h (by omega)
    · intro fs rest hne h
      exact absurd h (by omega)
  | succ fuel ih =>
    obtain ⟨ihV, ihE, ihF⟩ := ih
    refine ⟨?_, ?_, ?_⟩
    · intro j rest hlen hnd
      cases j with
      | null => rfl
      | bool b => cases b <;> rfl
      | num n =>
        cases n with
        | ofNat m =>
          have hrc : Json.renderChars (Json.num (Int.ofNat m)) =
              natDigitsAux (m+1) m := rfl
          obtain ⟨c, cs, hcs⟩ : ∃ c cs, natDigitsAux (m+1) m = c :: cs := by
            cases he : natDigitsAux (m+1) m with
            | nil => exact absurd he (natDigitsAux_ne_nil (Nat.lt_succ_self m))
            | cons c cs => exact ⟨c, cs, rfl⟩
          have hd : isDigitChar c = true :=
            natDigitsAux_digits (Nat.lt_succ_self m) c (by rw [hcs]; simp)
          rw [hrc, hcs, List.cons_append, parseVal_digit hd, ← List.cons_append, ← hcs]
          rw [show natDigitsAux (m+1) m = intRepr (Int.ofNat m) from rfl]
          rw [parseNumber_intRepr _ rest hnd]
          rfl
        | negSucc m =>
          have hrc : Json.renderChars (Json.num (Int.negSucc m)) =
              '-' :: natDigitsAux (m+2) (m+1) := rfl
          rw [hrc, List.cons_append, parseVal_dash, ← List.cons_append]
          rw [show '-' :: natDigitsAux (m+2) (m+1) = intRepr (Int.negSucc m) from rfl]
          rw [parseNumber_intRepr _ rest hnd]
          rfl
      | str s =>
        have hrc : Json.renderChars (Json.str s) =
            '"' :: (s.data.flatMap escapeChar ++ ['"']) := rfl
        rw [hrc] at hlen ⊢
        rw [List.cons_append, parseVal_quote, List.append_assoc]
        simp only [List.singleton_append]
        rw [parseStringBody_escape s.data (fuel+1) rest (by
          simp only [List.length_cons, List.length_append] at hlen
          omega)]
        rfl
      | arr xs =>
        cases xs with
        | nil => rfl
        | cons x t =>
          obtain ⟨c, cs, hcs, hne⟩ := renderList_head x t
          have hrc : Json.renderChars (Json.arr (x :: t)) =
              '[' :: (Json.renderList (x :: t) ++ [']']) := rfl
          rw [hrc] at hlen ⊢
          rw [List.cons_append, List.append_assoc]
          simp only [List.singleton_append]
          rw [hcs, List.cons_append, parseVal_openArr hne, ← List.cons_append, ← hcs]
          rw [ihE (x :: t) rest (by simp) (by
            simp only [List.length_cons, List.length_append] at hlen
            omega)]
          rfl
      | obj fs =>
        cases fs with
        | nil => rfl
        | cons kv t =>
          obtain ⟨k, v⟩ := kv
          obtain ⟨tail, htail⟩ := renderFields_cons_form k v t
          have hrc : Json.renderChars (Json.obj ((k, v) :: t)) =
              '\x7b' :: (Json.renderFields ((k, v) :: t) ++ ['\x7d']) := rfl
          rw [hrc] at hlen ⊢
          rw [List.cons_append, List.append_assoc]
          simp only [List.singleton_append]
          rw [htail, List.cons_append, parseVal_openObj, ← List.cons_append, ← htail]
          rw [ihF ((k, v) :: t) rest (by simp) (by
            simp only [List.length_cons, List.length_append] at hlen
            omega)]
          rfl
    · intro xs rest hne hlen
      cases xs with
      | nil => exact absurd rfl hne
      | cons x t =>
        cases t with
        | nil =>
          have hrl : Json.renderList [x] = Json.renderChars x := rfl
          rw [hrl] at hlen ⊢
          have hv := ihV x (']' :: rest) (by omega) (by rfl)
          rw [parseElems.eq_def]
          simp [hv]
        | cons y r =>
          have hrl : Json.renderList (x :: y :: r) =
              Json.renderChars x ++ ',' :: Json.renderList (y :: r) := rfl
          rw [hrl] at hlen ⊢
          rw [List.append_assoc]
          simp only [List.cons_append]
          have hv := ihV x (',' :: (Json.renderList (y :: r) ++ ']' :: rest)) (by
            simp only [List.length_append, List.length_cons] at hlen
            omega) (by rfl)
          have he := ihE (y :: r) rest (by simp) (by
            simp only [List.length_append, List.length_cons] at hlen
            omega)
          rw [parseElems.eq_def]
          simp [hv, he]
    · intro fs rest hne hlen
      cases fs with
      | nil => exact absurd rfl hne
      | cons kv t =>
        obtain ⟨k, v⟩ := kv
        cases t with
        | nil =>
          have hrf : Json.renderFields [(k, v)] =
              renderStringChars k ++ ':' :: Json.renderChars v := rfl
          rw [hrf] at hlen ⊢
          rw [renderStringChars] at hlen ⊢
          simp only [List.cons_append, List.append_assoc, List.singleton_append,
            List.length_cons, List.length_append] at hlen ⊢
          have hsb := parseStringBody_escape k.data (fuel+1)
            (':' :: (Json.renderChars v ++ '\x7d' :: rest)) (by omega)
          have hv := ihV v ('\x7d' :: rest) (by omega) (by rfl)
          rw [parseFields.eq_def]
          simp [hsb, hv]
        | cons kv2 t2 =>
          have hrf : Json.renderFields ((k, v) :: kv2 :: t2) =
              renderStringChars k ++ ':' :: Json.renderChars v ++
                ',' :: Json.renderFields (kv2 :: t2) := rfl
          rw [hrf] at hlen ⊢
          rw [renderStringChars] at hlen ⊢
          simp only [List.cons_append, List.append_assoc, List.singleton_append,
            List.length_cons, List.length_append] at hlen ⊢
          have hsb := parseStringBody_escape k.data (fuel+1)
            (':' :: (Json.renderChars v ++ ',' :: (Json.renderFields (kv2 :: t2) ++
              '\x7d' :: rest))) (by omega)
          have hv := ihV v (',' :: (Json.renderFields (kv2 :: t2) ++ '\x7d' :: rest))
            (by omega) (by rfl)
          have hf := ihF (kv2 :: t2) rest (by simp) (by omega)
          rw [parseFields.eq_def]
          simp [hsb, hv, hf]

theorem Json.parse_render (j : Json) : Json.parse (Json.render j) = some j := by
  rw [Json.parse, Json.render]
  have hdata : (String.mk j.renderChars).data = j.renderChars := rfl
  rw [hdata]
  have h := (parse_render_aux (2 * j.renderChars.length + 4)).1 j [] (by omega) (by rfl)
  rw [List.append_nil] at h
  rw [h]

theorem char_valid_toNat (c : Char) :
    c.toNat < 0xD800 ∨ (0xE000 ≤ c.toNat ∧ c.toNat < 0x110000) := c.valid

theorem utf8EncodeChar_ne_nil (c : Char) : utf8EncodeChar c ≠ [] := by
  rw [utf8EncodeChar]
  by_cases h1 : c.toNat < 0x80
  · rw [if_pos h1]; simp
  · rw [if_neg h1]
    by_cases h2 : c.toNat < 0x800
    · rw [if_pos h2]; simp
    · rw [if_neg h2]
      by_cases h3 : c.toNat < 0x10000
      · rw [if_pos h3]; simp
      · rw [if_neg h3]; simp

theorem utf8EncodeChar_lt_256 (c : Char) : ∀ b ∈ utf8EncodeChar c, b < 256 := by
  have hval : c.toNat < 0x110000 := by
    rcases char_valid_toNat c with h | ⟨h1, h2⟩
    · omega
    · omega
  intro b hb
  rw [utf8EncodeChar] at hb
  by_cases h1 : c.toNat < 0x80
  · rw [if_pos h1] at hb
    simp at hb
    omega
  · rw [if_neg h1] at hb
    by_cases h2 : c.toNat < 0x800
    · rw [if_pos h2] at hb
      simp at hb
      rcases hb with h | h <;> omega
    · rw [if_neg h2] at hb
      by_cases h3 : c.toNat < 0x10000
      · rw [if_pos h3] at hb
        simp at hb
        rcases hb with h | h | h <;> omega
      · rw [if_neg h3] at hb
        simp at hb
        rcases hb with h | h | h | h <;> omega

theorem utf8Encode_lt_256 (s : String) : ∀ b ∈ utf8Encode s, b < 256 := by
  intro b hb
  rw [utf8Encode] at hb
  simp only [List.mem_flatMap] at hb
  obtain ⟨c, _, hb⟩ := hb
  exact utf8EncodeChar_lt_256 c b hb

theorem length_le_utf8_length (cs : List Char) :
    cs.length ≤ (cs.flatMap utf8EncodeChar).length := by
  induction cs with
  | nil => simp
  | cons c cs ih =>
    rw [List.flatMap_cons, List.length_append, List.length_cons]
    have h1 : 1 ≤ (utf8EncodeChar c).length := by
      cases he : utf8EncodeChar c with
      | nil => exact absurd he (utf8EncodeChar_ne_nil c)
      | cons b bs => simp
    omega

theorem utf8DecodeAux_encode (cs : List Char) :
    ∀ fuel, cs.length ≤ fuel →
      utf8DecodeAux fuel (cs.flatMap utf8EncodeChar) = some cs := by
  induction cs with
  | nil =>
    intro fuel _
    rw [List.flatMap_nil]
    cases fuel <;> rfl
  | cons c cs ih =>
    intro fuel hf
    rw [List.length_cons] at hf
    cases fuel with
    | zero => omega
    | succ f =>
      rw [List.flatMap_cons]
      have hval : c.toNat < 0x110000 := by
        rcases char_valid_toNat c with h | ⟨h1, h2⟩ <;> omega
      have hvalid : validScalar c.toNat = true := by
        rw [validScalar]
        rcases char_valid_toNat c with h | ⟨h1, h2⟩ <;> (simp; omega)
      rw [utf8EncodeChar]
      by_cases h1 : c.toNat < 0x80
      · rw [if_pos h1]
        simp only [List.cons_append, List.nil_append]
        simp only [utf8DecodeAux]
        rw [if_pos h1, ih f (by omega), Char.ofNat_toNat]
        rfl
      · rw [if_neg h1]
        by_cases h2 : c.toNat < 0x800
        · rw [if_pos h2]
          simp only [List.cons_append, List.nil_append]
          simp only [utf8DecodeAux]
          rw [if_neg (by omega), if_neg (by omega), if_pos (by omega)]
          rw [if_pos (by simp; omega)]
          have hn : (0xC0 + c.toNat / 64 - 0xC0) * 64 + (0x80 + c.toNat % 64 - 0x80) =
              c.toNat := by omega
          rw [hn, ih f (by omega), Char.ofNat_toNat]
          rfl
        · rw [if_neg h2]
          by_cases h3 : c.toNat < 0x10000
          · rw [if_pos h3]
            simp only [List.cons_append, List.nil_append]
            simp only [utf8DecodeAux]
            rw [if_neg (by omega), if_neg (by omega), if_neg (by omega), if_pos (by omega)]
            rw [if_pos (by simp; omega)]
            have hn : (0xE0 + c.toNat / 4096 - 0xE0) * 4096 +
                (0x80 + c.toNat / 64 % 64 - 0x80) * 64 + (0x80 + c.toNat % 64 - 0x80) =
                c.toNat := by omega
            rw [hn]
            rw [if_pos (by rw [Bool.and_eq_true, hvalid]; simp; omega)]
            rw [ih f (by omega), Char.ofNat_toNat]
            rfl
          · rw [if_neg h3]
            simp only [List.cons_append, List.nil_append]
            simp only [utf8DecodeAux]
            rw [if_neg (by omega), if_neg (by omega), if_neg (by omega), if_neg (by omega),
              if_pos (by omega)]
            rw [if_pos (by simp; omega)]
            have hn : (0xF0 + c.toNat / 262144 - 0xF0) * 262144 +
                (0x80 + c.toNat / 4096 % 64 - 0x80) * 4096 +
                (0x80 + c.toNat / 64 % 64 - 0x80) * 64 + (0x80 + c.toNat % 64 - 0x80) =
                c.toNat := by omega
            rw [hn]
            rw [if_pos (by simp; omega)]
            rw [ih f (by omega), Char.ofNat_toNat]
            rfl

theorem utf8Decode_encode (s : String) : utf8Decode (utf8Encode s) = some s := by
  rw [utf8Decode, utf8Encode]
  rw [utf8DecodeAux_encode s.data _ (length_le_utf8_length s.data)]
  rfl

theorem b64CharVal_b64Char : ∀ v, v < 64 → b64CharVal (b64Char v) = some v := by
  decide

theorem b64DecodeChars_encode (bytes : List Nat) (hb : ∀ b ∈ bytes, b < 256) :
    b64DecodeChars (b64EncodeBytes bytes) = some bytes := by
  have H : ∀ n (bytes : List Nat), bytes.length ≤ n → (∀ b ∈ bytes, b < 256) →
      b64DecodeChars (b64EncodeBytes bytes) = some bytes := by
    intro n
    induction n with
    | zero =>
      intro bytes hlen hb
      have hnil : bytes = [] := List.eq_nil_of_length_eq_zero (by omega)
      rw [hnil]
      rfl
    | succ n ih =>
      intro bytes hlen hb
      cases bytes with
      | nil => rfl
      | cons b0 t0 =>
        have hb0 : b0 < 256 := hb b0 (by simp)
        cases t0 with
        | nil =>
          have e0 : b64CharVal (b64Char (b0 / 4)) = some (b0 / 4) :=
            b64CharVal_b64Char _ (by omega)
          have e1 : b64CharVal (b64Char (b0 % 4 * 16)) = some (b0 % 4 * 16) :=
            b64CharVal_b64Char _ (by omega)
          simp only [b64EncodeBytes, b64DecodeChars, e0, e1]
          rw [if_pos (by omega)]
          have hr : b0 / 4 * 4 + b0 % 4 * 16 / 16 = b0 := by omega
          rw [hr]
        | cons b1 t1 =>
          have hb1 : b1 < 256 := hb b1 (by simp)
          cases t1 with
          | nil =>
            have e0 : b64CharVal (b64Char (b0 / 4)) = some (b0 / 4) :=
              b64CharVal_b64Char _ (by omega)
            have e1 : b64CharVal (b64Char (b0 % 4 * 16 + b1 / 16)) =
                some (b0 % 4 * 16 + b1 / 16) := b64CharVal_b64Char _ (by omega)
            have e2 : b64CharVal (b64Char (b1 % 16 * 4)) = some (b1 % 16 * 4) :=
              b64CharVal_b64Char _ (by omega)
            simp only [b64EncodeBytes, b64DecodeChars, e0, e1, e2]
            rw [if_pos (by omega)]
            have hr0 : b0 / 4 * 4 + (b0 % 4 * 16 + b1 / 16) / 16 = b0 := by omega
            have hr1 : (b0 % 4 * 16 + b1 / 16) % 16 * 16 + b1 % 16 * 4 / 4 = b1 := by
              omega
            rw [hr0, hr1]
          | cons b2 rest =>
            have hb2 : b2 < 256 := hb b2 (by simp)
            have e0 : b64CharVal (b64Char (b0 / 4)) = some (b0 / 4) :=
              b64CharVal_b64Char _ (by omega)
            have e1 : b64CharVal (b64Char (b0 % 4 * 16 + b1 / 16)) =
                some (b0 % 4 * 16 + b1 / 16) := b64CharVal_b64Char _ (by omega)
            have e2 : b64CharVal (b64Char (b1 % 16 * 4 + b2 / 64)) =
                some (b1 % 16 * 4 + b2 / 64) := b64CharVal_b64Char _ (by omega)
            have e3 : b64CharVal (b64Char (b2 % 64)) = some (b2 % 64) :=
              b64CharVal_b64Char _ (by omega)
            simp only [b64EncodeBytes, b64DecodeChars, e0, e1, e2, e3]
            rw [ih rest (by
              simp only [List.length_cons] at hlen
              omega) (fun b hbm => hb b (by simp [hbm]))]
            have hr0 : b0 / 4 * 4 + (b0 % 4 * 16 + b1 / 16) / 16 = b0 := by omega
            have hr1 : (b0 % 4 * 16 + b1 / 16) % 16 * 16 + (b1 % 16 * 4 + b2 / 64) / 4 =
                b1 := by omega
            have hr2 : (b1 % 16 * 4 + b2 / 64) % 4 * 64 + b2 % 64 = b2 := by omega
            rw [hr0, hr1, hr2]
            rfl
  exact H bytes.length bytes (Nat.le_refl _) hb

/-! ### String-level encode/decode -/

/-- The crate-level constant `RESOURCE_PREFIX` (defined in the crate
root for this protocol version, which is not among the provided source
files); the specification records `urn:recap:` as the deployed constant.
The Lean name avoids a suffix reserved by the verification tooling. -/
def RESOURCE_PFX : String := "urn:recap:"

/-- `Capability::encode`: canonical JSON text, UTF-8, base64url (no pad). -/
def Capability.encode (c : Capability) : String :=
  ⟨b64EncodeBytes (utf8Encode (Json.render (Capability.toJson c)))⟩

/-- `Capability::decode`: base64-decode (failure → `Base64Decode`), then
parse the JSON text and deserialize (failures → `De`). -/
def Capability.decode (s : String) : Except DecodingError Capability :=
  match b64DecodeChars s.data with
  | none => .error .Base64Decode
  | some bytes =>
    match utf8Decode bytes with
    | none => .error .De
    | some text =>
      match Json.parse text with
      | none => .error .De
      | some j => Capability.fromJson j

/-! ## SIWE message embedding (`build_message`, `extract`,
`extract_and_verify`)

The host `siwe::Message` is an external collaborator; per the
specification's host-message contract the core reads and writes only
`statement`, `resources` and `uri`, so the model carries exactly those
three fields. -/

structure Message where
  uri : Uri
  statement : Option String
  resources : List Uri
deriving Repr

/-- Rust `str::starts_with`. -/
def strStartsWith (s pre : String) : Bool := pre.data.isPrefixOf s.data

/-- Rust `str::ends_with`. -/
def strEndsWith (s suf : String) : Bool := suf.data.isSuffixOf s.data

/-- Rust `str::is_empty`. -/
def strIsEmpty (s : String) : Bool := s.data.isEmpty

/-- `str::strip_prefix` after a positive `starts_with` test: drop the
matched characters. -/
def strDropChars (s : String) (n : Nat) : String := ⟨s.data.drop n⟩

/-- `TryFrom<&UriString> for Capability`: strip the resource prefix (or
fail) and decode the remainder. -/
def Capability.try_from_uri (u : Uri) : Except DecodingError Capability :=
  if strStartsWith u RESOURCE_PFX then
    Capability.decode (strDropChars u RESOURCE_PFX.data.length)
  else .error (.InvalidResourcePfx u)

/-- `Capability::build_message`: no-op on an empty capability, otherwise
push the encoded resource and append the generated statement after the
host statement (with a single separating space when one exists).  The
Rust signature returns `Result` only because the external serializer and
URI parser are fallible; in the model the operation is total. -/
def Capability.build_message (c : Capability) (message : Message) : Message :=
  if c.attenuations.isEmpty then message
  else
    let statement := c.to_statement
    let encoded := RESOURCE_PFX ++ c.encode
    let m := (message.statement.getD "")
    { message with
      resources := message.resources ++ [encoded],
      statement := some (if strIsEmpty m then statement else m ++ " " ++ statement) }

/-- `Capability::extract`: look only at the last resource entry; absence
of the prefix there is `Ok(None)`. -/
def Capability.extract (message : Message) : Except DecodingError (Option Capability) :=
  match message.resources.getLast? with
  | none => .ok none
  | some u =>
    if strStartsWith u RESOURCE_PFX then
      match Capability.try_from_uri u with
      | .error e => .error e
      | .ok c => .ok (some c)
    else .ok none

inductive VerificationError where
  | Decoding (e : DecodingError)
  | IncorrectStatement (expected : String)
deriving DecidableEq, Repr

/-- `Capability::extract_and_verify`: decode the capability, regenerate
its statement, and require the message statement to end with it. -/
def Capability.extract_and_verify (message : Message) :
    Except VerificationError (Option Capability) :=
  match Capability.extract message with
  | .error e => .error (.Decoding e)
  | .ok none => .ok none
  | .ok (some c) =>
    let expected := c.to_statement
    match message.statement with
    | some s =>
      if strEndsWith s expected then .ok (some c)
      else .error (.IncorrectStatement expected)
    | none => .error (.IncorrectStatement expected)

/-! ## Claim lemmas and theorems -/

theorem splitOnceList_none_iff {sep : Char} {l : List Char} :
    splitOnceList sep l = none ↔ sep ∉ l := by
  induction l with
  | nil => simp [splitOnceList]
  | cons c rest ih =>
    by_cases hc : c = sep
    · subst hc
      simp [splitOnceList]
    · rw [splitOnceList, if_neg hc]
      constructor
      · intro h hm
        rcases List.mem_cons.mp hm with hm | hm
        · exact hc hm.symm
        · cases hs : splitOnceList sep rest with
          | none => exact (ih.mp hs) hm
          | some p => rw [hs] at h; simp at h
      · intro hm
        have : sep ∉ rest := fun h => hm (List.mem_cons_of_mem _ h)
        rw [ih.mpr this]
        rfl

theorem splitOnceList_some_decomp {sep : Char} {l a b : List Char}
    (h : splitOnceList sep l = some (a, b)) :
    l = a ++ sep :: b ∧ sep ∉ a := by
  induction l generalizing a with
  | nil => simp [splitOnceList] at h
  | cons c rest ih =>
    by_cases hc : c = sep
    · subst hc
      rw [splitOnceList, if_pos rfl] at h
      obtain ⟨ha, hb⟩ := Prod.mk.injEq _ _ _ _ ▸ Option.some.inj h
      rw [← ha, ← hb]
      exact ⟨rfl, List.not_mem_nil _⟩
    · rw [splitOnceList, if_neg hc] at h
      cases hs : splitOnceList sep rest with
      | none => rw [hs] at h; simp at h
      | some p =>
        rw [hs] at h
        simp only [Option.map_some'] at h
        obtain ⟨ha, hb⟩ := Prod.mk.injEq _ _ _ _ ▸ Option.some.inj h
        obtain ⟨hl, hm⟩ := ih (a := p.1) (by rw [hs, ← hb])
        constructor
        · rw [← ha, List.cons_append, hl]
        · rw [← ha]
          intro hmem
          rcases List.mem_cons.mp hmem with hmem | hmem
          · exact hc hmem.symm
          · exact hm hmem

theorem splitOnce_data {s nss names : String}
    (h : splitOnce '/' s = some (nss, names)) :
    splitOnceList '/' s.data = some (nss.data, names.data) := by
  rw [splitOnce] at h
  cases hs : splitOnceList '/' s.data with
  | none => rw [hs] at h; simp at h
  | some p =>
    rw [hs] at h
    simp only [Option.map_some'] at h
    obtain ⟨ha, hb⟩ := Prod.mk.injEq _ _ _ _ ▸ Option.some.inj h
    rw [← ha, ← hb]

theorem AbilityNamespace.fromStr_ns_err {s : String}
    (h : (s.isEmpty || s.data.any not_allowed) = true) :
    AbilityNamespace.fromStr s = .error (.InvalidCharacter s) := by
  rw [AbilityNamespace.fromStr, if_pos h]

theorem AbilityNamespace.fromStr_ns_ok {s : String}
    (h : (s.isEmpty || s.data.any not_allowed) = false) :
    AbilityNamespace.fromStr s = .ok ⟨s⟩ := by
  rw [AbilityNamespace.fromStr, if_neg (by simp [h])]

theorem AbilityName.fromStr_name_err {s : String}
    (h : (s.isEmpty || s.data.any not_allowed) = true) :
    AbilityName.fromStr s = .error (.InvalidCharacter s) := by
  rw [AbilityName.fromStr, if_pos h]

theorem AbilityName.fromStr_name_ok {s : String}
    (h : (s.isEmpty || s.data.any not_allowed) = false) :
    AbilityName.fromStr s = .ok ⟨s⟩ := by
  rw [AbilityName.fromStr, if_neg (by simp [h])]

/-- C7: `FromStr for Ability` fails with `MissingSeparator` exactly when
the string has no `/`; otherwise the string splits at its first `/` and
each half is rejected (as `InvalidCharacter` of that half) exactly when
it is empty or contains a character outside alphanumerics and
`-`, `_`, `.`, `+`, `*`; the specification's accepted and rejected
literals behave accordingly. -/
theorem c7_ability_grammar :
    (∀ s : String, Ability.fromStr s = .error .MissingSeparator ↔ '/' ∉ s.data)
    ∧ (∀ s nss names : String, splitOnce '/' s = some (nss, names) →
        (s.data = nss.data ++ '/' :: names.data ∧ '/' ∉ nss.data)
        ∧ (Ability.fromStr s = .error (.Namespace (.InvalidCharacter nss)) ↔
            (nss.isEmpty || nss.data.any not_allowed) = true)
        ∧ ((nss.isEmpty || nss.data.any not_allowed) = false →
            (Ability.fromStr s = .error (.Name (.InvalidCharacter names)) ↔
              (names.isEmpty || names.data.any not_allowed) = true))
        ∧ (Ability.fromStr s = .ok ⟨⟨nss⟩, ⟨names⟩⟩ ↔
            ((nss.isEmpty || nss.data.any not_allowed) = false ∧
             (names.isEmpty || names.data.any not_allowed) = false)))
    ∧ (Ability.fromStr "credential/present" = .ok ⟨⟨"credential"⟩, ⟨"present"⟩⟩
        ∧ Ability.fromStr "kv/list" = .ok ⟨⟨"kv"⟩, ⟨"list"⟩⟩
        ∧ Ability.fromStr "some-ns/some-name" = .ok ⟨⟨"some-ns"⟩, ⟨"some-name"⟩⟩
        ∧ Ability.fromStr "msg/*" = .ok ⟨⟨"msg"⟩, ⟨"*"⟩⟩)
    ∧ (Ability.fromStr "credential ns/present" =
          .error (.Namespace (.InvalidCharacter "credential ns"))
        ∧ Ability.fromStr "kv-list" = .error .MissingSeparator
        ∧ Ability.fromStr "some:ns/some-name" =
            .error (.Namespace (.InvalidCharacter "some:ns"))
        ∧ Ability.fromStr "msg/wrong/str" =
            .error (.Name (.InvalidCharacter "wrong/str"))
        ∧ Ability.fromStr "/" = .error (.Namespace (.InvalidCharacter ""))) := by
  refine ⟨?_, ?_, ⟨rfl, rfl, rfl, rfl⟩, ⟨rfl, rfl, rfl, rfl, rfl⟩⟩
  · intro s
    cases hs : splitOnce '/' s with
    | none =>
      have he : Ability.fromStr s = .error .MissingSeparator := by
        simp [Ability.fromStr, hs]
      rw [he]
      refine ⟨fun _ => ?_, fun _ => rfl⟩
      rw [splitOnce] at hs
      cases hl : splitOnceList '/' s.data with
      | none => exact splitOnceList_none_iff.mp hl
      | some p => rw [hl] at hs; simp at hs
    | some p =>
      obtain ⟨nss, names⟩ := p
      have hd := splitOnce_data hs
      obtain ⟨hdec, _⟩ := splitOnceList_some_decomp hd
      constructor
      · intro h
        exfalso
        by_cases h1 : (nss.isEmpty || nss.data.any not_allowed) = true
        · rw [Ability.fromStr] at h
          simp [hs, AbilityNamespace.fromStr_ns_err h1] at h
        · have h1' := AbilityNamespace.fromStr_ns_ok (s := nss) (by simpa using h1)
          by_cases h2 : (names.isEmpty || names.data.any not_allowed) = true
          · rw [Ability.fromStr] at h
            simp [hs, h1', AbilityName.fromStr_name_err h2] at h
          · have h2' := AbilityName.fromStr_name_ok (s := names) (by simpa using h2)
            rw [Ability.fromStr] at h
            simp [hs, h1', h2'] at h
      · intro h
        exfalso
        exact h (by rw [hdec]; exact List.mem_append_right _ (List.mem_cons_self _ _))
  · intro s nss names hs
    have hd := splitOnce_data hs
    obtain ⟨hdec, hnm⟩ := splitOnceList_some_decomp hd
    refine ⟨⟨hdec, hnm⟩, ?_, ?_, ?_⟩
    · by_cases h1 : (nss.isEmpty || nss.data.any not_allowed) = true
      · have : Ability.fromStr s = .error (.Namespace (.InvalidCharacter nss)) := by
          rw [Ability.fromStr]
          simp only [hs, AbilityNamespace.fromStr_ns_err h1]
        rw [this]
        exact ⟨fun _ => h1, fun _ => rfl⟩
      · have h1' : (nss.isEmpty || nss.data.any not_allowed) = false := by
          simpa using h1
        have hok := AbilityNamespace.fromStr_ns_ok (s := nss) h1'
        rw [h1']
        constructor
        · intro h
          exfalso
          by_cases h2 : (names.isEmpty || names.data.any not_allowed) = true
          · rw [Ability.fromStr] at h
            simp [hs, hok, AbilityName.fromStr_name_err h2] at h
          · have h2' := AbilityName.fromStr_name_ok (s := names) (by simpa using h2)
            rw [Ability.fromStr] at h
            simp [hs, hok, h2'] at h
        · intro h; exact absurd h (by simp)
    · intro h1
      have hok := AbilityNamespace.fromStr_ns_ok (s := nss) h1
      by_cases h2 : (names.isEmpty || names.data.any not_allowed) = true
      · have : Ability.fromStr s = .error (.Name (.InvalidCharacter names)) := by
          rw [Ability.fromStr]
          simp only [hs, hok, AbilityName.fromStr_name_err h2]
        rw [this]
        exact ⟨fun _ => h2, fun _ => rfl⟩
      · have h2' : (names.isEmpty || names.data.any not_allowed) = false := by
          simpa using h2
        have hok2 := AbilityName.fromStr_name_ok (s := names) h2'
        rw [h2']
        constructor
        · intro h
          rw [Ability.fromStr] at h
          simp [hs, hok, hok2] at h
        · intro h; exact absurd h (by simp)
    · constructor
      · intro h
        by_cases h1 : (nss.isEmpty || nss.data.any not_allowed) = true
        · rw [Ability.fromStr] at h
          simp [hs, AbilityNamespace.fromStr_ns_err h1] at h
        · have h1' : (nss.isEmpty || nss.data.any not_allowed) = false := by
            simpa using h1
          have hok := AbilityNamespace.fromStr_ns_ok (s := nss) h1'
          by_cases h2 : (names.isEmpty || names.data.any not_allowed) = true
          · rw [Ability.fromStr] at h
            simp [hs, hok, AbilityName.fromStr_name_err h2] at h
          · have h2' : (names.isEmpty || names.data.any not_allowed) = false := by
              simpa using h2
            exact ⟨h1', h2'⟩
      · intro ⟨h1, h2⟩
        rw [Ability.fromStr]
        simp only [hs, AbilityNamespace.fromStr_ns_ok (s := nss) h1,
          AbilityName.fromStr_name_ok (s := names) h2]

/-- Witness for C7 at concrete inputs. -/
theorem c7_ability_grammar_witness :
    Ability.fromStr "kv-list" = .error .MissingSeparator ∧
    Ability.fromStr "msg/wrong/str" = .error (.Name (.InvalidCharacter "wrong/str")) :=
  ⟨(c7_ability_grammar.1 "kv-list").mpr (by decide),
   ((c7_ability_grammar.2.1 "msg/wrong/str" "msg" "wrong/str" (by decide)).2.2.1
      (by decide)).mpr (by decide)⟩

theorem Ability.cmp_lt_iff_ltb {a b : Ability} :
    Ability.cmp a b = .lt ↔ Ability.ltb a b = true := by
  rw [Ability.ltb]
  cases Ability.cmp a b <;> simp

theorem Ability.seq_inj {a b : Ability} (ha : a.valid = true)
    (hb : b.valid = true) (h : a.seq = b.seq) : a = b := by
  rw [Ability.valid, Bool.and_eq_true] at ha hb
  have hA := @splitOnceList_append a.ns.str.data a.name.str.data (valid_not_sep ha.1)
  have hB := @splitOnceList_append b.ns.str.data b.name.str.data (valid_not_sep hb.1)
  rw [Ability.seq, Ability.seq] at h
  rw [h, hB] at hA
  obtain ⟨h1, h2⟩ := Prod.mk.injEq _ _ _ _ ▸ (Option.some.inj hA).symm
  obtain ⟨ns1, n1⟩ := a
  obtain ⟨ns2, n2⟩ := b
  obtain ⟨s1⟩ := ns1
  obtain ⟨s2⟩ := ns2
  obtain ⟨t1⟩ := n1
  obtain ⟨t2⟩ := n2
  cases s1; cases s2; cases t1; cases t2
  simp only at h1 h2
  rw [h1, h2]

/-- C6: `Ord for Ability` is exactly the lexicographic byte order on
`namespace ++ "/" ++ name` (shorter prefix first), it is a strict total
order (irreflexive, asymmetric, transitive, and discriminating on valid
abilities), and the specification's literal chain holds, including the
`*` < `/` tie-break. -/
theorem c6_ability_order :
    (∀ a b : Ability, Ability.cmp a b = lexCmp a.seq b.seq)
    ∧ (∀ a : Ability, Ability.cmp a a = .eq)
    ∧ (∀ a b : Ability, Ability.cmp a b = .lt ↔ Ability.cmp b a = .gt)
    ∧ (∀ a b c : Ability,
        Ability.cmp a b = .lt → Ability.cmp b c = .lt → Ability.cmp a c = .lt)
    ∧ (∀ a b : Ability, a.valid = true → b.valid = true →
        Ability.cmp a b = .eq → a = b)
    ∧ (Ability.cmp ⟨⟨"a"⟩, ⟨"b"⟩⟩ ⟨⟨"a"⟩, ⟨"c"⟩⟩ = .lt
        ∧ Ability.cmp ⟨⟨"a"⟩, ⟨"c"⟩⟩ ⟨⟨"aa"⟩, ⟨"a"⟩⟩ = .lt
        ∧ Ability.cmp ⟨⟨"aa"⟩, ⟨"a"⟩⟩ ⟨⟨"b"⟩, ⟨"a"⟩⟩ = .lt
        ∧ Ability.cmp ⟨⟨"b"⟩, ⟨"a"⟩⟩ ⟨⟨"kv*"⟩, ⟨"read"⟩⟩ = .lt
        ∧ Ability.cmp ⟨⟨"kv*"⟩, ⟨"read"⟩⟩ ⟨⟨"kv"⟩, ⟨"list"⟩⟩ = .lt
        ∧ Ability.cmp ⟨⟨"kv"⟩, ⟨"list"⟩⟩ ⟨⟨"kv"⟩, ⟨"read"⟩⟩ = .lt
        ∧ Ability.cmp ⟨⟨"kv"⟩, ⟨"read"⟩⟩ ⟨⟨"kva"⟩, ⟨"get"⟩⟩ = .lt) := by
  refine ⟨Ability.cmp_eq_lexCmp, ?_, ?_, ?_, ?_, by decide⟩
  · intro a
    rw [Ability.cmp_eq_lexCmp]
    exact lexCmp_self _
  · intro a b
    rw [Ability.cmp_eq_lexCmp, Ability.cmp_eq_lexCmp]
    exact lexCmp_gt_iff.symm
  · intro a b c h1 h2
    rw [Ability.cmp_lt_iff_ltb] at h1 h2 ⊢
    exact Ability.ltb_trans h1 h2
  · intro a b ha hb h
    rw [Ability.cmp_eq_lexCmp] at h
    exact Ability.seq_inj ha hb (lexCmp_eq_iff.mp h)

/-- Witness for C6: the transitivity and discrimination components at
concrete abilities. -/
theorem c6_ability_order_witness :
    Ability.cmp ⟨⟨"a"⟩, ⟨"b"⟩⟩ ⟨⟨"aa"⟩, ⟨"a"⟩⟩ = .lt ∧
    (⟨⟨"kv"⟩, ⟨"read"⟩⟩ : Ability) = ⟨⟨"kv"⟩, ⟨"read"⟩⟩ :=
  ⟨c6_ability_order.2.2.2.1 ⟨⟨"a"⟩, ⟨"b"⟩⟩ ⟨⟨"a"⟩, ⟨"c"⟩⟩ ⟨⟨"aa"⟩, ⟨"a"⟩⟩
      (by decide) (by decide),
   c6_ability_order.2.2.2.2.1 ⟨⟨"kv"⟩, ⟨"read"⟩⟩ ⟨⟨"kv"⟩, ⟨"read"⟩⟩
      (by decide) (by decide) (by decide)⟩

/-! ### Concrete fixtures used by witnesses and counterexamples -/

def wCap : Capability :=
  Capability.new.with_action "kepler:ens:example.eth://default/kv"
    ⟨⟨"kv"⟩, ⟨"read"⟩⟩ []

def wMsg : Message := ⟨"did:key:example", none, []⟩

/-- C5: building a message from a capability with non-empty attenuations
appends exactly one resource entry, equal to the prefix followed by the
encoding, and composes the statement: the generated text alone when the
host statement is absent or empty, otherwise the host statement, one
space, and the generated text. -/
theorem c5_build_message (c : Capability) (m : Message)
    (h : c.attenuations ≠ []) :
    (c.build_message m).resources = m.resources ++ [RESOURCE_PFX ++ c.encode]
    ∧ (c.build_message m).statement = some (match m.statement with
        | none => c.to_statement
        | some s => if strIsEmpty s then c.to_statement
                    else s ++ " " ++ c.to_statement)
    ∧ (c.build_message m).uri = m.uri := by
  have hne : c.attenuations.isEmpty = false := by
    cases hc : c.attenuations with
    | nil => exact absurd hc h
    | cons a rest => rfl
  rw [Capability.build_message, if_neg (by simp [hne])]
  refine ⟨rfl, ?_, rfl⟩
  cases hs : m.statement with
  | none =>
    have he : strIsEmpty "" = true := rfl
    simp only [hs, Option.getD_none, he, if_true]
  | some s =>
    simp only [hs, Option.getD_some]

theorem c5_build_message_witness :
    (Capability.build_message wCap wMsg).resources =
      wMsg.resources ++ [RESOURCE_PFX ++ wCap.encode]
    ∧ (Capability.build_message wCap wMsg).statement = some (match wMsg.statement with
        | none => wCap.to_statement
        | some s => if strIsEmpty s then wCap.to_statement
                    else s ++ " " ++ wCap.to_statement)
    ∧ (Capability.build_message wCap wMsg).uri = wMsg.uri :=
  c5_build_message wCap wMsg (fun h => List.noConfusion h)

/-- C10: extraction inspects only the last resource entry.  If the last
entry (when present) does not carry the prefix, both `extract` and
`extract_and_verify` return `Ok(None)` no matter what earlier entries
hold; and any decode error can only arise from a prefixed last entry. -/
theorem c10_extract_last_only :
    (∀ (m : Message) (u : Uri), m.resources.getLast? = some u →
      strStartsWith u RESOURCE_PFX = false →
      Capability.extract m = .ok none ∧ Capability.extract_and_verify m = .ok none)
    ∧ (∀ (m : Message), m.resources.getLast? = none →
      Capability.extract m = .ok none ∧ Capability.extract_and_verify m = .ok none)
    ∧ (∀ (m : Message) (e : DecodingError), Capability.extract m = .error e →
      ∃ u, m.resources.getLast? = some u ∧ strStartsWith u RESOURCE_PFX = true) := by
  refine ⟨?_, ?_, ?_⟩
  · intro m u hlast hsw
    have he : Capability.extract m = .ok none := by
      rw [Capability.extract]
      simp only [hlast, hsw]
      rfl
    refine ⟨he, ?_⟩
    rw [Capability.extract_and_verify, he]
  · intro m hlast
    have he : Capability.extract m = .ok none := by
      rw [Capability.extract]
      simp only [hlast]
    refine ⟨he, ?_⟩
    rw [Capability.extract_and_verify, he]
  · intro m e herr
    rw [Capability.extract] at herr
    cases hlast : m.resources.getLast? with
    | none => rw [hlast] at herr; simp at herr
    | some u =>
      rw [hlast] at herr
      by_cases hsw : strStartsWith u RESOURCE_PFX
      · exact ⟨u, rfl, hsw⟩
      · simp only [hsw] at herr
        simp at herr

theorem c10_extract_last_only_witness :
    Capability.extract
      ⟨"did:key:example", none,
        [RESOURCE_PFX ++ Capability.encode wCap, "https://example.com/other"]⟩ =
      .ok none
    ∧ Capability.extract_and_verify
      ⟨"did:key:example", none,
        [RESOURCE_PFX ++ Capability.encode wCap, "https://example.com/other"]⟩ =
      .ok none :=
  c10_extract_last_only.1
    ⟨"did:key:example", none,
      [RESOURCE_PFX ++ Capability.encode wCap, "https://example.com/other"]⟩
    "https://example.com/other" (by rfl) (by decide)

def wBuilt : Message := Capability.build_message wCap wMsg

/-- `extract` never reads the statement, so altering it leaves
extraction unchanged. -/
theorem extract_statement_irrelevant (m : Message) (s : Option String) :
    Capability.extract { m with statement := s } = Capability.extract m := by
  cases m
  rfl

/-- C2 (amended): when the last resource entry decodes to a capability
`c`, `extract_and_verify` succeeds with `c` exactly when the statement
is present and ends with `c`'s regenerated statement text, and
otherwise fails with `IncorrectStatement` of that text.  Appending
non-empty trailing text to the statement of a verifying message causes
`IncorrectStatement` whenever the altered statement no longer ends with
the regenerated text (appending text that itself ends with the
regenerated text evades this, see the counterexample). -/
theorem c2_verify_statement :
    (∀ (m : Message) (c : Capability), Capability.extract m = .ok (some c) →
      (Capability.extract_and_verify m = .ok (some c) ↔
        ∃ s, m.statement = some s ∧ strEndsWith s c.to_statement = true)
      ∧ (Capability.extract_and_verify m =
          .error (.IncorrectStatement c.to_statement) ↔
          ¬ ∃ s, m.statement = some s ∧ strEndsWith s c.to_statement = true))
    ∧ (∀ (m : Message) (c : Capability) (s t : String),
        Capability.extract_and_verify m = .ok (some c) →
        m.statement = some s → t ≠ "" →
        strEndsWith (s ++ t) c.to_statement = false →
        Capability.extract_and_verify { m with statement := some (s ++ t) } =
          .error (.IncorrectStatement c.to_statement)) := by
  have hchar : ∀ (m : Message) (c : Capability),
      Capability.extract m = .ok (some c) →
      (Capability.extract_and_verify m = .ok (some c) ↔
        ∃ s, m.statement = some s ∧ strEndsWith s c.to_statement = true)
      ∧ (Capability.extract_and_verify m =
          .error (.IncorrectStatement c.to_statement) ↔
          ¬ ∃ s, m.statement = some s ∧ strEndsWith s c.to_statement = true) := by
    intro m c hx
    rw [Capability.extract_and_verify, hx]
    cases hs : m.statement with
    | none =>
      constructor
      · constructor
        · intro h; simp at h
        · intro ⟨s, hcon, _⟩; cases hcon
      · constructor
        · intro _ ⟨s, hcon, _⟩; cases hcon
        · intro _; trivial
    | some s =>
      by_cases hend : strEndsWith s c.to_statement
      · simp only [hend, if_true]
        constructor
        · exact ⟨fun _ => ⟨s, rfl, hend⟩, fun _ => by trivial⟩
        · constructor
          · intro h; simp at h
          · intro h; exact absurd ⟨s, rfl, hend⟩ h
      · have hend' : strEndsWith s c.to_statement = false := by simpa using hend
        simp only [hend', if_false]
        constructor
        · constructor
          · intro h; simp at h
          · intro ⟨s', hse, he⟩
            rw [← Option.some.inj hse] at he
            rw [he] at hend'
            exact absurd hend' (by simp)
        · constructor
          · intro _ ⟨s', hse, he⟩
            rw [← Option.some.inj hse] at he
            rw [he] at hend'
            exact absurd hend' (by simp)
          · intro _; trivial
  refine ⟨hchar, ?_⟩
  intro m c s t hv hst _ hend
  have hx : Capability.extract m = .ok (some c) := by
    rw [Capability.extract_and_verify] at hv
    cases he : Capability.extract m with
    | error e => rw [he] at hv; simp at hv
    | ok o =>
      cases o with
      | none => rw [he] at hv; simp at hv
      | some c' =>
        rw [he] at hv
        cases hs : m.statement with
        | none => rw [hs] at hv; simp at hv
        | some s' =>
          rw [hs] at hv
          by_cases hew : strEndsWith s' c'.to_statement
          · simp only [hew, if_true] at hv
            rw [Option.some.inj (Except.ok.inj hv)]
          · have : strEndsWith s' c'.to_statement = false := by simpa using hew
            simp only [this, if_false] at hv
            simp at hv
  have hx' : Capability.extract { m with statement := some (s ++ t) } = .ok (some c) := by
    rw [extract_statement_irrelevant]
    exact hx
  rw [Capability.extract_and_verify, hx']
  simp only [hend]
  rfl

/-- Witness for C2 at a concrete built message and trailing text. -/
theorem c2_verify_statement_witness :
    Capability.extract_and_verify
      { wBuilt with statement := some (wCap.to_statement ++ " I am the walrus!") } =
      .error (.IncorrectStatement wCap.to_statement) :=
  c2_verify_statement.2 wBuilt wCap wCap.to_statement " I am the walrus!"
    (by rfl) (by rfl) (by decide) (by decide)

/-- Counterexample to C2 as stated: appending the regenerated statement
text itself (non-empty trailing text) to a verifying message's
statement still verifies, because the tail-match still succeeds. -/
theorem c2_counterexample :
    Capability.extract_and_verify wBuilt = .ok (some wCap)
    ∧ wCap.to_statement ≠ ""
    ∧ Capability.extract_and_verify
        { wBuilt with statement := some (wCap.to_statement ++ wCap.to_statement) } =
      .ok (some wCap) :=
  ⟨rfl, by decide, rfl⟩

/-- C4 (amended): the generated statement never references the
message's `uri` field (the text says literally "the stated URI"), so
altering the audience `uri` after construction does not affect
`extract_and_verify` at all. -/
theorem c4_uri_not_referenced (m : Message) (u : Uri) :
    Capability.extract_and_verify { m with uri := u } =
      Capability.extract_and_verify m := by
  cases m
  rfl

/-- Counterexample to C4 as stated: altering the audience `uri` of a
freshly built message leaves verification succeeding, not failing. -/
theorem c4_counterexample :
    Capability.extract_and_verify { wBuilt with uri := "did:key:attacker" } =
      .ok (some wCap)
    ∧ "did:key:attacker" ≠ wBuilt.uri :=
  ⟨rfl, by decide⟩

/-- Sorted insertions at strictly ordered keys commute. -/
theorem mapAlter_comm_lt {κ β : Type} {lt : κ → κ → Bool}
    (asym : ∀ a b : κ, lt a b = true → lt b a = false)
    (trans : ∀ a b c : κ, lt a b = true → lt b c = true → lt a c = true)
    (total : ∀ a b : κ, lt a b = false → lt b a = false → a = b)
    {k1 k2 : κ} (h12 : lt k1 k2 = true) (f1 f2 : Option β → β) :
    ∀ m : List (κ × β),
      mapAlter lt k1 f1 (mapAlter lt k2 f2 m) =
        mapAlter lt k2 f2 (mapAlter lt k1 f1 m) := by
  intro m
  induction m with
  | nil =>
    show mapAlter lt k1 f1 [(k2, f2 none)] = mapAlter lt k2 f2 [(k1, f1 none)]
    rw [mapAlter_cons_lt h12, mapAlter_cons_gt (asym _ _ h12) h12]
    rfl
  | cons p rest ih =>
    obtain ⟨k, v⟩ := p
    by_cases h1k : lt k1 k
    · have h2k1 : lt k2 k1 = false := asym _ _ h12
      rw [mapAlter_cons_lt h1k]
      by_cases h2k : lt k2 k
      · rw [mapAlter_cons_lt h2k, mapAlter_cons_lt h12,
          mapAlter_cons_gt h2k1 h12, mapAlter_cons_lt h2k]
      · have h2k' : lt k2 k = false := by simpa using h2k
        by_cases hk2 : lt k k2
        · rw [mapAlter_cons_gt h2k' hk2, mapAlter_cons_lt h1k,
            mapAlter_cons_gt h2k1 h12, mapAlter_cons_gt h2k' hk2]
        · have hk2' : lt k k2 = false := by simpa using hk2
          rw [mapAlter_cons_eq h2k' hk2', mapAlter_cons_lt h1k,
            mapAlter_cons_gt h2k1 h12, mapAlter_cons_eq h2k' hk2']
    · have h1k' : lt k1 k = false := by simpa using h1k
      by_cases hk1 : lt k k1
      · have hkk2 : lt k k2 = true := trans _ _ _ hk1 h12
        have h2k : lt k2 k = false := asym _ _ hkk2
        rw [mapAlter_cons_gt h2k hkk2, mapAlter_cons_gt h1k' hk1,
          mapAlter_cons_gt h1k' hk1, mapAlter_cons_gt h2k hkk2, ih]
      · have hk1' : lt k k1 = false := by simpa using hk1
        have hke : k1 = k := total _ _ h1k' hk1'
        subst hke
        have h2k1 : lt k2 k1 = false := asym _ _ h12
        rw [mapAlter_cons_gt h2k1 h12, mapAlter_cons_eq h1k' hk1',
          mapAlter_cons_eq h1k' hk1', mapAlter_cons_gt h2k1 h12]

/-- C9 (amended): the attenuation map is insertion-history independent —
`with_action` calls on two different targets commute, producing
byte-identical encodings — but the proof list serializes in insertion
order: adding the same set of proofs in a different order may change the
encoding (see the counterexample). -/
theorem c9_encode_content (c : Capability) (t1 t2 : Uri) (a1 a2 : Ability)
    (nb1 nb2 : NotaBene) (h : t1 ≠ t2) :
    (c.with_action t1 a1 nb1).with_action t2 a2 nb2 =
      (c.with_action t2 a2 nb2).with_action t1 a1 nb1
    ∧ Capability.encode ((c.with_action t1 a1 nb1).with_action t2 a2 nb2) =
      Capability.encode ((c.with_action t2 a2 nb2).with_action t1 a1 nb1) := by
  have hne : strLt t1 t2 = true ∨ strLt t2 t1 = true := by
    by_cases h1 : strLt t1 t2 = true
    · exact Or.inl h1
    · by_cases h2 : strLt t2 t1 = true
      · exact Or.inr h2
      · exact absurd (strLt_total' t1 t2 (by simpa using h1) (by simpa using h2)) h
  have hcap : (c.with_action t1 a1 nb1).with_action t2 a2 nb2 =
      (c.with_action t2 a2 nb2).with_action t1 a1 nb1 := by
    obtain ⟨att, prf⟩ := c
    rcases hne with h12 | h21
    · show Capability.mk (mapAlter strLt t2 _ (mapAlter strLt t1 _ att)) prf =
        Capability.mk (mapAlter strLt t1 _ (mapAlter strLt t2 _ att)) prf
      rw [mapAlter_comm_lt strLt_asymm' strLt_trans' strLt_total' h12]
    · show Capability.mk (mapAlter strLt t2 _ (mapAlter strLt t1 _ att)) prf =
        Capability.mk (mapAlter strLt t1 _ (mapAlter strLt t2 _ att)) prf
      rw [mapAlter_comm_lt strLt_asymm' strLt_trans' strLt_total' h21]
  exact ⟨hcap, congrArg Capability.encode hcap⟩

theorem c9_encode_content_witness :
    Capability.encode ((Capability.new.with_action "urn:a" ⟨⟨"kv"⟩, ⟨"read"⟩⟩ []).with_action
        "urn:b" ⟨⟨"kv"⟩, ⟨"put"⟩⟩ []) =
      Capability.encode ((Capability.new.with_action "urn:b" ⟨⟨"kv"⟩, ⟨"put"⟩⟩ []).with_action
        "urn:a" ⟨⟨"kv"⟩, ⟨"read"⟩⟩ []) :=
  (c9_encode_content Capability.new "urn:a" "urn:b" ⟨⟨"kv"⟩, ⟨"read"⟩⟩ ⟨⟨"kv"⟩, ⟨"put"⟩⟩
    [] [] (by decide)).2

/-- Counterexample to C9 as stated: two capabilities with the same proof
set (added in different orders) and identical attenuations encode to
different byte strings, because the proof list serializes in insertion
order. -/
theorem c9_counterexample :
    ((Capability.new.with_proof "cidA").with_proof "cidB").proof.Perm
      ((Capability.new.with_proof "cidB").with_proof "cidA").proof
    ∧ ((Capability.new.with_proof "cidA").with_proof "cidB").attenuations =
      ((Capability.new.with_proof "cidB").with_proof "cidA").attenuations
    ∧ Capability.encode ((Capability.new.with_proof "cidA").with_proof "cidB") ≠
      Capability.encode ((Capability.new.with_proof "cidB").with_proof "cidA") := by
  refine ⟨?_, rfl, by decide⟩
  have h1 : ((Capability.new.with_proof "cidA").with_proof "cidB").proof =
      ["cidA", "cidB"] := rfl
  have h2 : ((Capability.new.with_proof "cidB").with_proof "cidA").proof =
      ["cidB", "cidA"] := rfl
  rw [h1, h2]
  exact List.Perm.swap _ _ _

theorem mapGet_gt_none {κ β : Type} {lt : κ → κ → Bool} {q : κ}
    {m : List (κ × β)} (h : ∀ p ∈ m, lt q p.1 = true) :
    mapGet lt q m = none := by
  cases m with
  | nil => rfl
  | cons p rest =>
    obtain ⟨k1, v⟩ := p
    exact mapGet_cons_lt (h (k1, v) (List.mem_cons_self _ _))

/-- Like `mapGet_alter_ne`, with order-congruence of indistinguishable
keys in place of totality (order on `Ability` only discriminates the
comparison sequence, not the value). -/
theorem mapGet_alter_ne2 {κ β : Type} {lt : κ → κ → Bool}
    (asym : ∀ a b : κ, lt a b = true → lt b a = false)
    (trans : ∀ a b c : κ, lt a b = true → lt b c = true → lt a c = true)
    (hcong : ∀ a b : κ, lt a b = false → lt b a = false →
      ∀ c, lt a c = lt b c ∧ lt c a = lt c b)
    {m : List (κ × β)} {k q : κ}
    (hne : lt k q = true ∨ lt q k = true) (f : Option β → β) :
    mapGet lt q (mapAlter lt k f m) = mapGet lt q m := by
  induction m with
  | nil =>
    rcases hne with h | h
    · simp [mapAlter, mapGet, asym _ _ h, h]
    · simp [mapAlter, mapGet, h]
  | cons p rest ih =>
    obtain ⟨k1, v⟩ := p
    by_cases h1 : lt k k1
    · rw [mapAlter_cons_lt h1]
      rcases hne with h | h
      · rw [mapGet_cons_gt (asym _ _ h) h]
      · rw [mapGet_cons_lt h, mapGet_cons_lt (trans _ _ _ h h1)]
    · have h1' : lt k k1 = false := by simpa using h1
      by_cases h2 : lt k1 k
      · rw [mapAlter_cons_gt h1' h2]
        by_cases hq1 : lt q k1
        · rw [mapGet_cons_lt hq1, mapGet_cons_lt hq1]
        · have hq1' : lt q k1 = false := by simpa using hq1
          by_cases hq2 : lt k1 q
          · rw [mapGet_cons_gt hq1' hq2, mapGet_cons_gt hq1' hq2, ih]
          · have hq2' : lt k1 q = false := by simpa using hq2
            rw [mapGet_cons_eq hq1' hq2', mapGet_cons_eq hq1' hq2']
      · have h2' : lt k1 k = false := by simpa using h2
        rw [mapAlter_cons_eq h1' h2']
        by_cases hq1 : lt q k1
        · rw [mapGet_cons_lt hq1, mapGet_cons_lt hq1]
        · have hq1' : lt q k1 = false := by simpa using hq1
          by_cases hq2 : lt k1 q
          · rw [mapGet_cons_gt hq1' hq2, mapGet_cons_gt hq1' hq2]
          · exfalso
            have hq2' : lt k1 q = false := by simpa using hq2
            rcases hne with h | h
            · rw [(hcong k k1 h1' h2' q).1, hq2'] at h
              exact Bool.false_ne_true h
            · rw [(hcong q k1 hq1' hq2' k).1, h2'] at h
              exact Bool.false_ne_true h

/-- Altering at a key indistinguishable from the query behaves like
altering at the query itself. -/
theorem mapGet_alter_congr {κ β : Type} {lt : κ → κ → Bool}
    (hcong : ∀ a b : κ, lt a b = false → lt b a = false →
      ∀ c, lt a c = lt b c ∧ lt c a = lt c b)
    {k q : κ} (hq1 : lt q k = false) (hq2 : lt k q = false)
    (f : Option β → β) :
    ∀ m : List (κ × β),
      mapGet lt q (mapAlter lt k f m) = some (f (mapGet lt q m)) := by
  have hc := hcong q k hq1 hq2
  intro m
  induction m with
  | nil =>
    show mapGet lt q [(k, f none)] = some (f none)
    rw [mapGet_cons_eq hq1 hq2]
  | cons p rest ih =>
    obtain ⟨k1, v⟩ := p
    by_cases h1 : lt k k1
    · rw [mapAlter_cons_lt h1, mapGet_cons_eq hq1 hq2,
        mapGet_cons_lt (by rw [(hc k1).1]; exact h1)]
    · have h1' : lt k k1 = false := by simpa using h1
      by_cases h2 : lt k1 k
      · rw [mapAlter_cons_gt h1' h2,
          mapGet_cons_gt (by rw [(hc k1).1]; exact h1') (by rw [(hc k1).2]; exact h2),
          mapGet_cons_gt (by rw [(hc k1).1]; exact h1') (by rw [(hc k1).2]; exact h2),
          ih]
      · have h2' : lt k1 k = false := by simpa using h2
        rw [mapAlter_cons_eq h1' h2',
          mapGet_cons_eq (by rw [(hc k1).1]; exact h1') (by rw [(hc k1).2]; exact h2'),
          mapGet_cons_eq (by rw [(hc k1).1]; exact h1') (by rw [(hc k1).2]; exact h2')]

theorem strLt_congr' : ∀ a b : String, strLt a b = false → strLt b a = false →
    ∀ c, strLt a c = strLt b c ∧ strLt c a = strLt c b := by
  intro a b h1 h2 c
  rw [strLt_total' a b h1 h2]
  exact ⟨rfl, rfl⟩

theorem Ability.ltb_congr' : ∀ a b : Ability,
    Ability.ltb a b = false → Ability.ltb b a = false →
    ∀ c, Ability.ltb a c = Ability.ltb b c ∧ Ability.ltb c a = Ability.ltb c b := by
  intro a b h1 h2 c
  have hseq := Ability.ltb_seq_total h1 h2
  rw [Ability.ltb_eq_charListLt, Ability.ltb_eq_charListLt,
    Ability.ltb_eq_charListLt, Ability.ltb_eq_charListLt, hseq]
  exact ⟨rfl, rfl⟩

theorem mapGet_some_mem {κ β : Type} {lt : κ → κ → Bool} {k : κ} {v : β} :
    ∀ {m : List (κ × β)}, mapGet lt k m = some v →
      ∃ k1, (k1, v) ∈ m ∧ lt k k1 = false ∧ lt k1 k = false := by
  intro m
  induction m with
  | nil => intro h; cases h
  | cons p rest ih =>
    obtain ⟨k1, w⟩ := p
    intro h
    by_cases h1 : lt k k1
    · rw [mapGet_cons_lt h1] at h; cases h
    · have h1' : lt k k1 = false := by simpa using h1
      by_cases h2 : lt k1 k
      · rw [mapGet_cons_gt h1' h2] at h
        obtain ⟨k2, hm, hl⟩ := ih h
        exact ⟨k2, List.mem_cons_of_mem _ hm, hl⟩
      · have h2' : lt k1 k = false := by simpa using h2
        rw [mapGet_cons_eq h1' h2'] at h
        exact ⟨k1, by rw [Option.some.inj h] at *; exact List.mem_cons_self _ _,
          h1', h2'⟩

/-- Lookup after `merge`'s inner fold: `b`'s note-benes for the queried
ability are appended after the slot's existing list (the slot is created
when absent). -/
theorem inner_merge_lookup (ab : Ability) :
    ∀ abs : List (Ability × NotaBene), MapWF Ability.ltb abs →
    ∀ inner0 : List (Ability × NotaBene),
      mapGet Ability.ltb ab (abs.foldl
        (fun m q => mapAlter Ability.ltb q.1 (fun cur => cur.getD [] ++ q.2) m)
        inner0) =
      (match mapGet Ability.ltb ab abs with
       | none => mapGet Ability.ltb ab inner0
       | some y => some ((mapGet Ability.ltb ab inner0).getD [] ++ y)) := by
  intro abs
  induction abs with
  | nil =>
    intro _ inner0
    rfl
  | cons q rest ih =>
    intro hwf inner0
    obtain ⟨ab', nbs⟩ := q
    rw [MapWF, List.pairwise_cons] at hwf
    obtain ⟨hhead, hrest⟩ := hwf
    rw [List.foldl_cons]
    by_cases hlt : Ability.ltb ab ab'
    · have hrn : mapGet Ability.ltb ab rest = none := by
        refine mapGet_gt_none (fun p hp => ?_)
        exact Ability.ltb_trans hlt (hhead p hp)
      rw [ih hrest _, hrn, mapGet_cons_lt hlt]
      exact mapGet_alter_ne2 Ability.ltb_asymm' Ability.ltb_trans'
        Ability.ltb_congr' (Or.inr hlt) _
    · have hlt' : Ability.ltb ab ab' = false := by simpa using hlt
      by_cases hgt : Ability.ltb ab' ab
      · have he : mapGet Ability.ltb ab
            (mapAlter Ability.ltb ab' (fun cur => cur.getD [] ++ nbs) inner0) =
            mapGet Ability.ltb ab inner0 :=
          mapGet_alter_ne2 Ability.ltb_asymm' Ability.ltb_trans'
            Ability.ltb_congr' (Or.inl hgt) _
        rw [ih hrest _, he, mapGet_cons_gt hlt' hgt]
      · have hgt' : Ability.ltb ab' ab = false := by simpa using hgt
        have hrn : mapGet Ability.ltb ab rest = none := by
          refine mapGet_gt_none (fun p hp => ?_)
          rw [(Ability.ltb_congr' ab ab' hlt' hgt' p.1).1]
          exact hhead p hp
        rw [ih hrest _, hrn, mapGet_cons_eq hlt' hgt',
          mapGet_alter_congr Ability.ltb_congr' hlt' hgt' _ inner0]

/-- Lookup after `merge`'s outer fold over `b`'s attenuation entries. -/
theorem att_merge_lookup (t : Uri) :
    ∀ ps : List (Uri × List (Ability × NotaBene)), MapWF strLt ps →
    ∀ att0 : List (Uri × List (Ability × NotaBene)),
      mapGet strLt t (ps.foldl
        (fun acc p =>
          mapAlter strLt p.1
            (fun inner => p.2.foldl
              (fun m q => mapAlter Ability.ltb q.1 (fun cur => cur.getD [] ++ q.2) m)
              (inner.getD []))
            acc)
        att0) =
      (match mapGet strLt t ps with
       | none => mapGet strLt t att0
       | some abs => some (abs.foldl
          (fun m q => mapAlter Ability.ltb q.1 (fun cur => cur.getD [] ++ q.2) m)
          ((mapGet strLt t att0).getD []))) := by
  intro ps
  induction ps with
  | nil =>
    intro _ att0
    rfl
  | cons p rest ih =>
    intro hwf att0
    obtain ⟨u, abs⟩ := p
    rw [MapWF, List.pairwise_cons] at hwf
    obtain ⟨hhead, hrest⟩ := hwf
    rw [List.foldl_cons]
    by_cases hlt : strLt t u
    · have hrn : mapGet strLt t rest = none := by
        refine mapGet_gt_none (fun p hp => ?_)
        exact strLt_trans hlt (hhead p hp)
      rw [ih hrest _, hrn, mapGet_cons_lt hlt]
      exact mapGet_alter_ne2 strLt_asymm' strLt_trans' strLt_congr' (Or.inr hlt) _
    · have hlt' : strLt t u = false := by simpa using hlt
      by_cases hgt : strLt u t
      · have he : mapGet strLt t (mapAlter strLt u
            (fun inner => abs.foldl
              (fun m q => mapAlter Ability.ltb q.1 (fun cur => cur.getD [] ++ q.2) m)
              (inner.getD []))
            att0) = mapGet strLt t att0 :=
          mapGet_alter_ne2 strLt_asymm' strLt_trans' strLt_congr' (Or.inl hgt) _
        rw [ih hrest _, he, mapGet_cons_gt hlt' hgt]
      · have hgt' : strLt u t = false := by simpa using hgt
        have hue : t = u := strLt_total' t u hlt' hgt'
        subst hue
        have hrn : mapGet strLt t rest = none := by
          refine mapGet_gt_none (fun p hp => ?_)
          exact hhead p hp
        rw [ih hrest _, hrn, mapGet_cons_eq hlt' hgt',
          mapGet_alter_self strLt_asymm' t _]

theorem mem_dedupPush_foldl {ps l : List Cid} {x : Cid} :
    x ∈ ps.foldl (fun acc p => if acc.contains p then acc else acc ++ [p]) l ↔
      x ∈ l ∨ x ∈ ps := by
  induction ps generalizing l with
  | nil => simp
  | cons p rest ih =>
    rw [List.foldl_cons]
    by_cases hc : l.contains p
    · rw [if_pos hc, ih]
      have hpl : p ∈ l := List.elem_iff.mp hc
      constructor
      · intro h
        rcases h with h | h
        · exact Or.inl h
        · exact Or.inr (List.mem_cons_of_mem _ h)
      · intro h
        rcases h with h | h
        · exact Or.inl h
        · rcases List.mem_cons.mp h with h | h
          · exact Or.inl (h ▸ hpl)
          · exact Or.inr h
    · rw [if_neg hc, ih]
      constructor
      · intro h
        rcases h with h | h
        · rcases List.mem_append.mp h with h | h
          · exact Or.inl h
          · rw [List.mem_singleton] at h
            exact Or.inr (h ▸ List.mem_cons_self _ _)
        · exact Or.inr (List.mem_cons_of_mem _ h)
      · intro h
        rcases h with h | h
        · exact Or.inl (List.mem_append_left _ h)
        · rcases List.mem_cons.mp h with h | h
          · exact Or.inl (List.mem_append_right _ (by rw [h]; exact List.mem_singleton_self _))
          · exact Or.inr h

/-- C8: `merge(a, b)` keeps every distinct proof of `a` and `b` exactly
once (the result is duplicate-free and its membership is the union), and
for every `(target, ability)` slot the resulting note-bene list is `a`'s
list followed by `b`'s list, the slot being created when absent. -/
theorem c8_merge (a b : Capability) (ha : Built a) (hb : Built b) :
    ((a.merge b).proof.Nodup
      ∧ ∀ p : Cid, p ∈ (a.merge b).proof ↔ p ∈ a.proof ∨ p ∈ b.proof)
    ∧ ∀ (t : Uri) (ab : Ability),
        (a.merge b).can_do t ab =
          (match a.can_do t ab, b.can_do t ab with
           | none, none => none
           | some x, none => some x
           | none, some y => some y
           | some x, some y => some (x ++ y)) := by
  obtain ⟨_, _, hand⟩ := ha.wf
  obtain ⟨hb1, hb2, _⟩ := hb.wf
  refine ⟨⟨?_, ?_⟩, ?_⟩
  · rw [Capability.merge_proof]
    exact dedupPush_foldl_nodup hand
  · intro p
    rw [Capability.merge_proof]
    exact mem_dedupPush_foldl
  · intro t ab
    rw [Capability.can_do, Capability.merge_att, att_merge_lookup t b.attenuations hb1]
    have hacd : a.can_do t ab =
        (mapGet strLt t a.attenuations).bind (fun m => mapGet Ability.ltb ab m) := rfl
    have hbcd : b.can_do t ab =
        (mapGet strLt t b.attenuations).bind (fun m => mapGet Ability.ltb ab m) := rfl
    rw [hacd, hbcd]
    cases hbt : mapGet strLt t b.attenuations with
    | none =>
      simp only [Option.none_bind]
      cases hat : mapGet strLt t a.attenuations with
      | none => rfl
      | some x =>
        simp only [Option.some_bind]
        cases mapGet Ability.ltb ab x with
        | none => rfl
        | some z => rfl
    | some abs =>
      have habs : MapWF Ability.ltb abs := by
        obtain ⟨k1, hmem, hl1, hl2⟩ := mapGet_some_mem hbt
        exact (hb2 (k1, abs) hmem).1
      simp only [Option.some_bind]
      rw [inner_merge_lookup ab abs habs]
      cases hba : mapGet Ability.ltb ab abs with
      | none =>
        cases hat : mapGet strLt t a.attenuations with
        | none => rfl
        | some x =>
          simp only [Option.getD_some, Option.some_bind]
          cases mapGet Ability.ltb ab x with
          | none => rfl
          | some z => rfl
      | some y =>
        cases hat : mapGet strLt t a.attenuations with
        | none => rfl
        | some x =>
          simp only [Option.getD_some, Option.some_bind]
          cases mapGet Ability.ltb ab x with
          | none => rfl
          | some z => rfl

def wCapB : Capability :=
  (Capability.new.with_proof "cidX").with_action "kepler:ens:example.eth://default/kv"
    ⟨⟨"kv"⟩, ⟨"read"⟩⟩ [[("limit", Json.num 5)]]

theorem c8_merge_witness :
    ((wCap.merge wCapB).proof.Nodup
      ∧ ("cidX" ∈ (wCap.merge wCapB).proof ↔
          "cidX" ∈ wCap.proof ∨ "cidX" ∈ wCapB.proof))
    ∧ (wCap.merge wCapB).can_do "kepler:ens:example.eth://default/kv"
        ⟨⟨"kv"⟩, ⟨"read"⟩⟩ =
        (match wCap.can_do "kepler:ens:example.eth://default/kv" ⟨⟨"kv"⟩, ⟨"read"⟩⟩,
               wCapB.can_do "kepler:ens:example.eth://default/kv" ⟨⟨"kv"⟩, ⟨"read"⟩⟩ with
         | none, none => none
         | some x, none => some x
         | none, some y => some y
         | some x, some y => some (x ++ y)) :=
  have hA : Built wCap :=
    Built.with_action Built.new (by decide) (fun m hm => absurd hm (List.not_mem_nil m))
  have hB : Built wCapB :=
    Built.with_action (Built.with_proof Built.new) (by decide)
      (fun m hm => by
        rw [List.mem_singleton] at hm
        rw [hm]
        exact List.pairwise_singleton _ _)
  have h := c8_merge wCap wCapB hA hB
  ⟨⟨h.1.1, h.1.2 "cidX"⟩, h.2 "kepler:ens:example.eth://default/kv" ⟨⟨"kv"⟩, ⟨"read"⟩⟩⟩

/-! ### C3: statement rendering, spec-side definitions

These definitions follow the specification's words for the rendering
algorithm (with the quoting of names amended to match the code) and are
compared against the source-translated `to_statement`. -/

theorem nsLtb_asymm' : ∀ a b : AbilityNamespace,
    nsLtb a b = true → nsLtb b a = false :=
  fun _ _ h => charListLt_asymm h

theorem nsLtb_trans' : ∀ a b c : AbilityNamespace,
    nsLtb a b = true → nsLtb b c = true → nsLtb a c = true :=
  fun _ _ _ h1 h2 => charListLt_trans h1 h2

theorem nsLtb_total' : ∀ a b : AbilityNamespace,
    nsLtb a b = false → nsLtb b a = false → a = b := by
  intro a b h1 h2
  obtain ⟨sa⟩ := a
  obtain ⟨sb⟩ := b
  cases sa; cases sb
  rw [congrArg String.mk (charListLt_total h1 h2)]

/-- Spec step 1 (key order): insert a namespace into the ordered,
duplicate-free namespace list. -/
def insertNs (ns : AbilityNamespace) : List AbilityNamespace → List AbilityNamespace
  | [] => [ns]
  | n1 :: rest =>
    if nsLtb ns n1 then ns :: n1 :: rest
    else if nsLtb n1 ns then n1 :: insertNs ns rest
    else n1 :: rest

/-- The distinct namespaces of a target's abilities, in namespace order. -/
def sortedNamespaces (abs : List (Ability × NotaBene)) : List AbilityNamespace :=
  abs.foldl (fun acc q => insertNs q.1.ns acc) []

/-- The names of a target's abilities belonging to one namespace, in
their original order. -/
def nsNames (abs : List (Ability × NotaBene)) (ns : AbilityNamespace) :
    List AbilityName :=
  (abs.filter (fun q => q.1.ns == ns)).map (fun q => q.1.name)

/-- Spec step 1: group a target's abilities by namespace, preserving the
ability order inside each group. -/
def specGroups (abs : List (Ability × NotaBene)) :
    List (AbilityNamespace × List AbilityName) :=
  (sortedNamespaces abs).map (fun ns => (ns, nsNames abs ns))

/-- Spec step 2 (amended: names are quoted like namespace and target):
`"<namespace>": "<name1>", "<name2>", ... for "<target>".` -/
def specClause (t : Uri) (ns : AbilityNamespace) (names : List AbilityName) : String :=
  "\"" ++ ns.str ++ "\": " ++
    String.intercalate ", " (names.map (fun n => "\"" ++ n.str ++ "\"")) ++
    " for \"" ++ t ++ "\"."

/-- One clause per `(Target, namespace, [names])` group, targets in
target order. -/
def specLines (c : Capability) : List String :=
  c.attenuations.flatMap (fun p =>
    (specGroups p.2).map (fun g => specClause p.1 g.1 g.2))

/-- Spec step 3: the fixed preamble, then each clause prefixed by a
space and its 1-based number in parentheses. -/
def specStatement (c : Capability) : String :=
  statementPreamble ++
    String.join ((specLines c).enum.map
      (fun p => " (" ++ toString (p.1 + 1) ++ ") " ++ p.2))

theorem insertNs_mem {ns x : AbilityNamespace} :
    ∀ {S : List AbilityNamespace}, x ∈ insertNs ns S ↔ x = ns ∨ x ∈ S := by
  intro S
  induction S with
  | nil => simp [insertNs]
  | cons n1 rest ih =>
    by_cases h1 : nsLtb ns n1
    · rw [insertNs, if_pos h1]
      simp
    · have h1' : nsLtb ns n1 = false := by simpa using h1
      by_cases h2 : nsLtb n1 ns
      · rw [insertNs, if_neg h1, if_pos h2]
        simp only [List.mem_cons, ih]
        tauto
      · have h2' : nsLtb n1 ns = false := by simpa using h2
        rw [insertNs, if_neg h1, if_neg h2]
        have he' : n1 = ns := nsLtb_total' n1 ns h2' h1'
        simp only [List.mem_cons, he']
        tauto

theorem insertNs_sorted {ns : AbilityNamespace} :
    ∀ {S : List AbilityNamespace}, S.Pairwise (fun a b => nsLtb a b = true) →
      (insertNs ns S).Pairwise (fun a b => nsLtb a b = true) := by
  intro S
  induction S with
  | nil =>
    intro _
    simp [insertNs]
  | cons n1 rest ih =>
    intro hs
    rw [List.pairwise_cons] at hs
    obtain ⟨hhead, hrest⟩ := hs
    by_cases h1 : nsLtb ns n1
    · rw [insertNs, if_pos h1]
      refine List.Pairwise.cons ?_ (List.Pairwise.cons hhead hrest)
      intro x hx
      rcases List.mem_cons.mp hx with hx | hx
      · rw [hx]; exact h1
      · exact nsLtb_trans' _ _ _ h1 (hhead x hx)
    · have h1' : nsLtb ns n1 = false := by simpa using h1
      by_cases h2 : nsLtb n1 ns
      · rw [insertNs, if_neg h1, if_pos h2]
        refine List.Pairwise.cons ?_ (ih hrest)
        intro x hx
        rcases insertNs_mem.mp hx with hx | hx
        · rw [hx]; exact h2
        · exact hhead x hx
      · have h2' : nsLtb n1 ns = false := by simpa using h2
        rw [insertNs, if_neg h1, if_neg h2]
        exact List.Pairwise.cons hhead hrest

theorem sortedNamespaces_mem {abs : List (Ability × NotaBene)} :
    ∀ {x : AbilityNamespace},
      x ∈ sortedNamespaces abs ↔ ∃ p ∈ abs, x = p.1.ns := by
  have hgen : ∀ (l : List (Ability × NotaBene)) (acc : List AbilityNamespace)
      (x : AbilityNamespace),
      x ∈ l.foldl (fun acc q => insertNs q.1.ns acc) acc ↔
        x ∈ acc ∨ ∃ p ∈ l, x = p.1.ns := by
    intro l
    induction l with
    | nil => intro acc x; simp
    | cons q rest ih =>
      intro acc x
      rw [List.foldl_cons, ih]
      rw [insertNs_mem]
      constructor
      · intro h
        rcases h with (h | h) | h
        · exact Or.inr ⟨q, List.mem_cons_self _ _, h⟩
        · exact Or.inl h
        · obtain ⟨p, hp, hx⟩ := h
          exact Or.inr ⟨p, List.mem_cons_of_mem _ hp, hx⟩
      · intro h
        rcases h with h | ⟨p, hp, hx⟩
        · exact Or.inl (Or.inr h)
        · rcases List.mem_cons.mp hp with hp | hp
          · exact Or.inl (Or.inl (hp ▸ hx))
          · exact Or.inr ⟨p, hp, hx⟩
  intro x
  rw [sortedNamespaces, hgen]
  simp

theorem sortedNamespaces_sorted {abs : List (Ability × NotaBene)} :
    (sortedNamespaces abs).Pairwise (fun a b => nsLtb a b = true) := by
  have hgen : ∀ (l : List (Ability × NotaBene)) (acc : List AbilityNamespace),
      acc.Pairwise (fun a b => nsLtb a b = true) →
      (l.foldl (fun acc q => insertNs q.1.ns acc) acc).Pairwise
        (fun a b => nsLtb a b = true) := by
    intro l
    induction l with
    | nil => intro acc h; exact h
    | cons q rest ih =>
      intro acc h
      rw [List.foldl_cons]
      exact ih _ (insertNs_sorted h)
  exact hgen abs [] (by simp)

theorem nsNames_append_single (abs : List (Ability × NotaBene))
    (q : Ability × NotaBene) (ns : AbilityNamespace) :
    nsNames (abs ++ [q]) ns =
      nsNames abs ns ++ (if q.1.ns == ns then [q.1.name] else []) := by
  rw [nsNames, nsNames, List.filter_append, List.map_append]
  by_cases h : q.1.ns == ns
  · simp [List.filter_cons, h]
  · simp [List.filter_cons, h]

theorem nsNames_append_single_ne {abs : List (Ability × NotaBene)}
    {q : Ability × NotaBene} {ns : AbilityNamespace} (h : q.1.ns ≠ ns) :
    nsNames (abs ++ [q]) ns = nsNames abs ns := by
  rw [nsNames_append_single]
  have hb : (q.1.ns == ns) = false := by simpa using h
  rw [hb]
  simp

theorem nsNames_nil_of_not_mem {abs : List (Ability × NotaBene)}
    {ns : AbilityNamespace} (h : ns ∉ sortedNamespaces abs) :
    nsNames abs ns = [] := by
  have hf : abs.filter (fun q => q.1.ns == ns) = [] := by
    rw [List.filter_eq_nil_iff]
    intro p hp hb
    exact h (sortedNamespaces_mem.mpr ⟨p, hp, (eq_of_beq hb).symm⟩)
  rw [nsNames, hf]
  rfl

theorem nsLtb_ne_of_lt {a b : AbilityNamespace} (h : nsLtb a b = true) :
    a ≠ b := by
  intro he
  rw [he] at h
  rw [lt_irrefl_of_asym nsLtb_asymm' b] at h
  exact Bool.false_ne_true h

theorem map_nsNames_congr {abs : List (Ability × NotaBene)}
    {q : Ability × NotaBene} {rest : List AbilityNamespace}
    (h : ∀ ns ∈ rest, q.1.ns ≠ ns) :
    rest.map (fun ns => (ns, nsNames (abs ++ [q]) ns)) =
      rest.map (fun ns => (ns, nsNames abs ns)) := by
  apply List.map_congr_left
  intro ns hns
  rw [nsNames_append_single_ne (h ns hns)]

theorem groupStep_insert (abs : List (Ability × NotaBene))
    (q : Ability × NotaBene) :
    ∀ (S : List AbilityNamespace),
      S.Pairwise (fun a b => nsLtb a b = true) →
      (q.1.ns ∉ S → nsNames abs q.1.ns = []) →
      mapAlter nsLtb q.1.ns (fun cur => cur.getD [] ++ [q.1.name])
        (S.map (fun ns => (ns, nsNames abs ns))) =
      (insertNs q.1.ns S).map (fun ns => (ns, nsNames (abs ++ [q]) ns)) := by
  intro S
  induction S with
  | nil =>
    intro _ hF
    have hF' : nsNames abs q.1.ns = [] := hF (by simp)
    rw [insertNs]
    simp only [List.map_nil, mapAlter, List.map_cons]
    rw [nsNames_append_single, hF']
    simp
  | cons n1 rest ih =>
    intro hs hF
    rw [List.pairwise_cons] at hs
    obtain ⟨hhead, hrest⟩ := hs
    rw [List.map_cons]
    by_cases h1 : nsLtb q.1.ns n1
    · have hne : q.1.ns ∉ n1 :: rest := by
        intro hmem
        rcases List.mem_cons.mp hmem with h | h
        · exact nsLtb_ne_of_lt h1 h
        · exact nsLtb_ne_of_lt (nsLtb_trans' _ _ _ h1 (hhead _ h)) rfl
      have hF' : nsNames abs q.1.ns = [] := hF hne
      rw [mapAlter_cons_lt h1, insertNs, if_pos h1]
      rw [List.map_cons, List.map_cons]
      congr 1
      · rw [nsNames_append_single, hF']
        simp
      · congr 1
        · rw [nsNames_append_single_ne (nsLtb_ne_of_lt h1)]
        · exact (map_nsNames_congr (fun ns hns =>
            nsLtb_ne_of_lt (nsLtb_trans' _ _ _ h1 (hhead _ hns)))).symm
    · have h1' : nsLtb q.1.ns n1 = false := by simpa using h1
      by_cases h2 : nsLtb n1 q.1.ns
      · have hne1 : q.1.ns ≠ n1 := fun he => nsLtb_ne_of_lt h2 he.symm
        rw [mapAlter_cons_gt h1' h2, insertNs, if_neg h1, if_pos h2]
        rw [List.map_cons]
        congr 1
        · rw [nsNames_append_single_ne hne1]
        · apply ih hrest
          intro hnr
          apply hF
          intro hmem
          rcases List.mem_cons.mp hmem with h | h
          · exact hne1 h
          · exact hnr h
      · have h2' : nsLtb n1 q.1.ns = false := by simpa using h2
        have he : n1 = q.1.ns := nsLtb_total' n1 q.1.ns h2' h1'
        rw [mapAlter_cons_eq h1' h2', insertNs, if_neg h1, if_neg h2]
        rw [List.map_cons]
        congr 1
        · rw [he, nsNames_append_single]
          simp
        · exact (map_nsNames_congr (fun ns hns => fun hq =>
            nsLtb_ne_of_lt (hhead ns hns) (he.trans hq))).symm

theorem groupFold_eq_specGroups (abs : List (Ability × NotaBene)) :
    abs.foldl
      (fun m q => mapAlter nsLtb q.1.ns (fun cur => cur.getD [] ++ [q.1.name]) m)
      [] = specGroups abs := by
  induction abs using List.reverseRecOn with
  | nil => rfl
  | append_singleton l q ih =>
    rw [List.foldl_append, List.foldl_cons, List.foldl_nil, ih]
    have hS : sortedNamespaces (l ++ [q]) = insertNs q.1.ns (sortedNamespaces l) := by
      rw [sortedNamespaces, sortedNamespaces, List.foldl_append, List.foldl_cons,
        List.foldl_nil]
    rw [specGroups, specGroups, hS]
    exact groupStep_insert l q (sortedNamespaces l) sortedNamespaces_sorted
      (fun h => nsNames_nil_of_not_mem h)

theorem strMkEq {a b : String} (h : a.data = b.data) : a = b := by
  cases a
  cases b
  exact congrArg String.mk h

theorem clause_eq (t : Uri) (ns : AbilityNamespace) (names : List AbilityName) :
    quoteStr ns.str ++ ": " ++
      String.intercalate ", " (names.map (fun an => quoteStr an.str)) ++
      " for " ++ quoteStr t ++ "." = specClause t ns names := by
  apply strMkEq
  rw [specClause]
  simp only [quoteStr]
  have d1 : ("\"" : String).data = ['"'] := rfl
  have d2 : (": " : String).data = [':', ' '] := rfl
  have d3 : ("\": " : String).data = ['"', ':', ' '] := rfl
  have d4 : (" for " : String).data = [' ', 'f', 'o', 'r', ' '] := rfl
  have d5 : (" for \"" : String).data = [' ', 'f', 'o', 'r', ' ', '"'] := rfl
  have d6 : ("." : String).data = ['.'] := rfl
  have d7 : ("\"." : String).data = ['"', '.'] := rfl
  simp only [String.data_append, List.append_assoc, d1, d2, d3, d4, d5, d6, d7,
    List.cons_append, List.nil_append]

theorem to_statement_lines_eq_specLines (c : Capability) :
    c.to_statement_lines = specLines c := by
  rw [Capability.to_statement_lines, Capability.to_line_groups, specLines]
  rw [List.map_flatMap]
  congr 1
  funext p
  rw [groupFold_eq_specGroups, List.map_map]
  apply List.map_congr_left
  intro g _
  exact clause_eq p.1 g.1 g.2

/-- C3 (amended): for every Capability, the generated statement is the
fixed preamble followed by every clause prefixed with a leading space
and its 1-based number in parentheses, one clause per
`(target, namespace, [names])` group with targets in target order and
each target's abilities grouped by namespace — but the clause wraps
EACH NAME in double quotes exactly like the namespace and the target,
i.e. it reads `"<namespace>": "<name1>", "<name2>", ... for
"<target>".`, as captured by the spec-side `specStatement`. -/
theorem c3_statement_format (c : Capability) :
    c.to_statement = specStatement c := by
  rw [Capability.to_statement, specStatement, to_statement_lines_eq_specLines]

/-- C3 counterexample: the code renders each ability name quoted, so the
claim's clause template with unquoted names does not match the actual
statement of a concrete one-action capability. -/
theorem c3_counterexample :
    Capability.to_statement wCap =
      statementPreamble ++
        " (1) \"kv\": \"read\" for \"kepler:ens:example.eth://default/kv\"." ∧
    Capability.to_statement wCap ≠
      statementPreamble ++
        " (1) \"kv\": read for \"kepler:ens:example.eth://default/kv\"." :=
  ⟨rfl, by decide⟩

/-- C1: for every Capability constructible from `Capability.new` through
the crate's builder operations (`with_action`, `with_actions`,
`with_proof`, `with_proofs`, `merge` — the `Built` predicate),
`decode (encode c)` recovers exactly `c`: every target, every ability
key, every NotaBene list in its order, and the proof list, through the
full pipeline of JSON serialization, text rendering, UTF-8 bytes and
padding-free URL-safe base64. -/
theorem c1_roundtrip (c : Capability) (h : Built c) :
    Capability.decode (Capability.encode c) = .ok c := by
  have h1 : b64DecodeChars (Capability.encode c).data =
      some (utf8Encode (Json.render (Capability.toJson c))) := by
    rw [Capability.encode]
    exact b64DecodeChars_encode _ (utf8Encode_lt_256 _)
  have h2 : utf8Decode (utf8Encode (Json.render (Capability.toJson c))) =
      some (Json.render (Capability.toJson c)) := utf8Decode_encode _
  have h3 : Json.parse (Json.render (Capability.toJson c)) =
      some (Capability.toJson c) := Json.parse_render _
  simp only [Capability.decode, h1, h2, h3]
  exact Capability.fromJson_toJson (Built.wf h)

/-- C1 witness: the concrete one-action capability is constructible, and
decoding its encoding returns it exactly. -/
theorem c1_roundtrip_witness :
    Built wCap ∧ Capability.decode (Capability.encode wCap) = .ok wCap :=
  have hA : Built wCap :=
    Built.with_action Built.new (by decide) (fun m hm => absurd hm (List.not_mem_nil m))
  ⟨hA, c1_roundtrip wCap hA⟩
